import Mathlib

set_option maxHeartbeats 1600000

/-!
Shallow embedding of the FUSE node core of MediaProvider
(src/jni/node-inl.h): the directory-tree entity `node`, its reference
counting and deletion lifecycle, the inode-to-node mapping, the
`NodeTracker` liveness registry, and the per-node handle bookkeeping.

Modelling choices:
- The C++ heap of `node` objects becomes an arena: an association list
  from `NodeId` (standing for the object address, hence also the inode
  number) to the record of node fields.  Allocation hands out `nextId`
  and bumps it, so a fresh allocation never reuses a live id.
- Pointer dereference of a node that is not in the arena, and every
  fatal `CHECK(...)` in the source, evaluate to `none`: `none` is the
  crashed / fatally-asserted outcome, `some` the normal return.
- `delete this` inside `Release` runs the destructor, which calls
  `RemoveFromParent`, which in turn calls `Release(1)` on the parent:
  this mutual recursion is fueled with an explicit `Nat`.
- Locks are dropped: every public operation of the source takes the one
  recursive lock for its whole body, so each operation is one atomic
  step on the state and the lock adds nothing to a sequential model.
- `RedactionInfo` is opaque in the source and is dropped from `handle`;
  the fields that the logic reads (`fd`, `cached`, identity) are kept,
  with an explicit `hid` playing the role of the handle object address.
-/

abbrev NodeId := Nat

structure Handle where
  hid : Nat
  fd : Int
  cached : Bool
  deriving DecidableEq, Repr

structure DirHandle where
  did : Nat
  next_off : Int
  deriving DecidableEq, Repr

structure NodeData where
  name : String
  refcount : Nat
  children : List NodeId
  parent : Option NodeId
  handles : List Handle
  dirhandles : List DirHandle
  deleted : Bool
  deriving DecidableEq, Repr

structure FsState where
  nodes : List (NodeId × NodeData)
  nextId : NodeId
  active : List NodeId
  deriving DecidableEq, Repr

/-- Reading a node object through its address: association-list lookup. -/
def lookupNode : List (NodeId × NodeData) → NodeId → Option NodeData
  | [], _ => none
  | (k, v) :: rest, id => if k = id then some v else lookupNode rest id

/-- Writing a node object through its address: replace the first binding. -/
def storeNode : List (NodeId × NodeData) → NodeId → NodeData → List (NodeId × NodeData)
  | [], _, _ => []
  | (k, v) :: rest, id, n => if k = id then (k, n) :: rest else (k, v) :: storeNode rest id n

/-- Freeing a node object: remove its binding from the arena. -/
def dropNode : List (NodeId × NodeData) → NodeId → List (NodeId × NodeData)
  | [], _ => []
  | (k, v) :: rest, id => if k = id then dropNode rest id else (k, v) :: dropNode rest id

def getNode (st : FsState) (id : NodeId) : Option NodeData :=
  lookupNode st.nodes id

def setNode (st : FsState) (id : NodeId) (n : NodeData) : FsState :=
  { st with nodes := storeNode st.nodes id n }

/-- node-inl.h line 67: inode tracking is compiled in. -/
def kEnableInodeTracking : Bool := true

namespace NodeTracker

/-- `NodeTracker::CheckTracked`: the CHECK passes iff the id is in the
active set (tracking is enabled). -/
def CheckTracked (st : FsState) (ino : Nat) : Bool :=
  if kEnableInodeTracking then ino ∈ st.active else true

/-- `NodeTracker::NodeCreated`: CHECK the node is not yet tracked, then
insert it into the active set. -/
def NodeCreated (st : FsState) (id : NodeId) : Option FsState :=
  if kEnableInodeTracking then
    if id ∈ st.active then none
    else some { st with active := id :: st.active }
  else some st

/-- `NodeTracker::NodeDeleted`: CHECK the node is tracked, then erase it
from the active set. -/
def NodeDeleted (st : FsState) (id : NodeId) : Option FsState :=
  if kEnableInodeTracking then
    if id ∈ st.active then some { st with active := st.active.erase id }
    else none
  else some st

end NodeTracker

namespace node

/-- `node::ToInode`: the inode of a node is its own address. -/
def ToInode (id : NodeId) : Nat := id

/-- `node::FromInode`: CheckTracked on the inode (fatal when untracked),
then reinterpret the inode as the node address. -/
def FromInode (st : FsState) (ino : Nat) : Option NodeId :=
  if NodeTracker.CheckTracked st ino then some ino else none

/-- `node::Acquire`: increment the refcount by one. -/
def Acquire (st : FsState) (id : NodeId) : Option FsState := do
  let n ← getNode st id
  pure (setNode st id { n with refcount := n.refcount + 1 })

/-- `node::AddToParent`: CHECK this node is unparented and the new parent
is non-null, then set the parent pointer, push this node onto the parent
child list, and Acquire the parent. -/
def AddToParent (st : FsState) (id : NodeId) (parent : Option NodeId) : Option FsState := do
  let n ← getNode st id
  if n.parent = none then
    match parent with
    | none => none
    | some p => do
        let _ ← getNode st p
        let st1 := setNode st id { n with parent := some p }
        let pn ← getNode st1 p
        let st2 := setNode st1 p { pn with children := pn.children ++ [id] }
        Acquire st2 p
  else none

/-- The field initialisers of the `node` constructor: refcount 0, no
parent, not deleted, empty child and handle lists. -/
def initNode (name : String) : NodeData :=
  { name := name, refcount := 0, children := [], parent := none,
    handles := [], dirhandles := [], deleted := false }

/-- The `node` constructor body: allocate, register with the tracker,
Acquire once, and link under the parent when one is given. -/
def construct (st : FsState) (parent : Option NodeId) (name : String) :
    Option (NodeId × FsState) := do
  let id := st.nextId
  let st0 : FsState :=
    { st with nodes := (id, initNode name) :: st.nodes, nextId := st.nextId + 1 }
  let st1 ← NodeTracker.NodeCreated st0 id
  let st2 ← Acquire st1 id
  match parent with
  | none => pure (id, st2)
  | some p => do
      let st3 ← AddToParent st2 id (some p)
      pure (id, st3)

/-- `node::Create`: run the constructor under the lock. -/
def Create (st : FsState) (parent : Option NodeId) (name : String) :
    Option (NodeId × FsState) :=
  construct st parent name

/-- `node::CreateRoot`: construct with no parent, then take the one extra
reference that keeps the root alive. -/
def CreateRoot (st : FsState) (path : String) : Option (NodeId × FsState) := do
  let (id, st1) ← construct st none path
  let st2 ← Acquire st1 id
  pure (id, st2)

mutual

/-- `node::Release(count)`: when `refcount >= count` subtract, and when
the result is zero run the destructor (`delete this`) and report true;
an over-release only logs and leaves the state alone. -/
def Release : Nat → FsState → NodeId → Nat → Option (Bool × FsState)
  | 0, _, _, _ => none
  | fuel + 1, st, id, count => do
      let n ← getNode st id
      if count ≤ n.refcount then
        let n1 := { n with refcount := n.refcount - count }
        let st1 := setNode st id n1
        if n1.refcount = 0 then
          let st2 ← destroyNode fuel st1 id
          pure (true, st2)
        else
          pure (false, st1)
      else
        pure (false, st)
termination_by structural fuel _ _ _ => fuel

/-- The `node` destructor: RemoveFromParent, clear the handle lists,
unregister from the tracker, and free the object. -/
def destroyNode : Nat → FsState → NodeId → Option FsState
  | 0, _, _ => none
  | fuel + 1, st, id => do
      let st1 ← RemoveFromParent fuel st id
      let n ← getNode st1 id
      let st2 := setNode st1 id { n with handles := [], dirhandles := [] }
      let st3 ← NodeTracker.NodeDeleted st2 id
      pure { st3 with nodes := dropNode st3.nodes id }
termination_by structural fuel _ _ => fuel

/-- `node::RemoveFromParent`: when parented, erase this node from the
parent child list (CHECK it is there), Release one reference on the
parent, and null the parent pointer. -/
def RemoveFromParent : Nat → FsState → NodeId → Option FsState
  | 0, _, _ => none
  | fuel + 1, st, id => do
      let n ← getNode st id
      match n.parent with
      | none => pure st
      | some p => do
          let pn ← getNode st p
          if id ∈ pn.children then
            let st1 := setNode st p { pn with children := pn.children.erase id }
            let (_, st2) ← Release fuel st1 p 1
            let n2 ← getNode st2 id
            pure (setNode st2 id { n2 with parent := none })
          else none
termination_by structural fuel _ _ => fuel

end

/-- `node::Rename`: assign the new name; when the parent changes, detach
from the old parent and attach to the new one. -/
def Rename (fuel : Nat) (st : FsState) (id : NodeId) (name : String)
    (newParent : Option NodeId) : Option FsState := do
  let n ← getNode st id
  let st1 := setNode st id { n with name := name }
  if newParent = n.parent then pure st1
  else do
    let st2 ← RemoveFromParent fuel st1 id
    AddToParent st2 id newParent

/-- `node::SetDeleted`: set the deleted flag. -/
def SetDeleted (st : FsState) (id : NodeId) : Option FsState := do
  let n ← getNode st id
  pure (setNode st id { n with deleted := true })

/-- `node::GetName`. -/
def GetName (st : FsState) (id : NodeId) : Option String := do
  let n ← getNode st id
  pure n.name

/-- `node::GetParent`. -/
def GetParent (st : FsState) (id : NodeId) : Option (Option NodeId) := do
  let n ← getNode st id
  pure n.parent

/-- Byte-level `tolower` of the C locale, as used by `strcasecmp`. -/
def asciiLower (c : Char) : Char :=
  if 'A' ≤ c ∧ c ≤ 'Z' then Char.ofNat (c.toNat + 32) else c

/-- `strcasecmp(a, b) == 0`: equality after per-character lowering. -/
def caseEq (a b : String) : Bool :=
  a.data.map asciiLower == b.data.map asciiLower

/-- The loop body of `LookupChildByName`: scan the child list, return
the first child whose name matches case-insensitively and whose deleted
flag is clear, acquiring it first when asked to. -/
def scanChildren (st : FsState) (name : String) (acquire : Bool) :
    List NodeId → Option (Option NodeId × FsState)
  | [] => pure (none, st)
  | c :: rest => do
      let cn ← getNode st c
      if caseEq name cn.name && !cn.deleted then
        if acquire then do
          let st1 ← Acquire st c
          pure (some c, st1)
        else
          pure (some c, st)
      else
        scanChildren st name acquire rest

/-- `node::LookupChildByName`. -/
def LookupChildByName (st : FsState) (id : NodeId) (name : String) (acquire : Bool) :
    Option (Option NodeId × FsState) := do
  let n ← getNode st id
  scanChildren st name acquire n.children

/-- `node::AddHandle`: append to the handle list. -/
def AddHandle (st : FsState) (id : NodeId) (h : Handle) : Option FsState := do
  let n ← getNode st id
  pure (setNode st id { n with handles := n.handles ++ [h] })

/-- Erase the first handle with the given identity; `none` when absent
(the CHECK of `DestroyHandle`). -/
def removeHandle : List Handle → Nat → Option (List Handle)
  | [], _ => none
  | h :: rest, k =>
      if h.hid = k then some rest
      else do
        let r ← removeHandle rest k
        pure (h :: r)

/-- `node::DestroyHandle`: find the handle by identity (CHECK found) and
erase it. -/
def DestroyHandle (st : FsState) (id : NodeId) (k : Nat) : Option FsState := do
  let n ← getNode st id
  let hs ← removeHandle n.handles k
  pure (setNode st id { n with handles := hs })

/-- `node::HasCachedHandle`: some attached handle has the cached flag. -/
def HasCachedHandle (st : FsState) (id : NodeId) : Option Bool := do
  let n ← getNode st id
  pure (n.handles.any (fun h => h.cached))

/-- Erase the first dirhandle with the given identity. -/
def removeDirHandle : List DirHandle → Nat → Option (List DirHandle)
  | [], _ => none
  | d :: rest, k =>
      if d.did = k then some rest
      else do
        let r ← removeDirHandle rest k
        pure (d :: r)

/-- `node::AddDirHandle`: append to the dirhandle list. -/
def AddDirHandle (st : FsState) (id : NodeId) (d : DirHandle) : Option FsState := do
  let n ← getNode st id
  pure (setNode st id { n with dirhandles := n.dirhandles ++ [d] })

/-- `node::DestroyDirHandle`: find the dirhandle by identity (CHECK
found) and erase it. -/
def DestroyDirHandle (st : FsState) (id : NodeId) (k : Nat) : Option FsState := do
  let n ← getNode st id
  let ds ← removeDirHandle n.dirhandles k
  pure (setNode st id { n with dirhandles := ds })

end node

/-! ## Invariants

`specInvB` is the tree/tracker invariant exactly as the specification
states it: each listed child points back to its parent, each parented
node occurs exactly once in the child list of its (live) parent, and the
tracker active set holds exactly the live nodes.

`InvE` is the strengthened inductive invariant used in the preservation
proofs: it adds that live ids are distinct and below the allocation
cursor and that a node holds at least one reference per child.  The
parameter `exc` exempts nodes from the occurs-once clause: during
`RemoveFromParent` the node being detached is transiently unlinked from
its parent while the parent gets released, and the recursion is verified
under that transient exemption.  `invB` is the executable form of
`InvE` with no exemption. -/

/-- The spec-stated invariant, executably. -/
def specInvB (st : FsState) : Bool :=
  st.nodes.all (fun kv => kv.2.children.all (fun c =>
    match getNode st c with
    | some m => m.parent == some kv.1
    | none => false)) &&
  st.nodes.all (fun kv =>
    match kv.2.parent with
    | none => true
    | some p =>
        match getNode st p with
        | some pm => pm.children.count kv.1 == 1
        | none => false) &&
  st.active.all (fun j => (getNode st j).isSome) &&
  st.nodes.all (fun kv => st.active.contains kv.1)

/-- The strengthened invariant, with an exemption set for the
occurs-once-in-parent clause. -/
def InvE (exc : NodeId → Prop) (st : FsState) : Prop :=
  (st.nodes.map Prod.fst).Nodup ∧
  (∀ j m, getNode st j = some m → j < st.nextId) ∧
  (∀ j m, getNode st j = some m →
      ∀ c ∈ m.children, ∃ cm, getNode st c = some cm ∧ cm.parent = some j) ∧
  (∀ j m, getNode st j = some m → ∀ p, m.parent = some p → ¬ exc j →
      ∃ pm, getNode st p = some pm ∧ pm.children.count j = 1) ∧
  (∀ j m, getNode st j = some m → m.children.length ≤ m.refcount) ∧
  st.active.Nodup ∧
  (∀ j, j ∈ st.active ↔ (getNode st j).isSome = true) ∧
  (∀ j, exc j → ∀ q pm, getNode st q = some pm → j ∉ pm.children)

/-- The strengthened invariant with no exemption. -/
def TreeInv (st : FsState) : Prop := InvE (fun _ => False) st

/-- Executable check of `Inv`. -/
def invB (st : FsState) : Bool :=
  (st.nodes.map Prod.fst).Nodup &&
  st.nodes.all (fun kv => kv.1 < st.nextId) &&
  st.nodes.all (fun kv => kv.2.children.all (fun c =>
    match getNode st c with
    | some m => m.parent == some kv.1
    | none => false)) &&
  st.nodes.all (fun kv =>
    match kv.2.parent with
    | none => true
    | some p =>
        match getNode st p with
        | some pm => pm.children.count kv.1 == 1
        | none => false) &&
  st.nodes.all (fun kv => kv.2.children.length ≤ kv.2.refcount) &&
  st.active.Nodup &&
  st.active.all (fun j => (getNode st j).isSome) &&
  st.nodes.all (fun kv => st.active.contains kv.1)

/-- One node of the state shrank: same identity-independent fields, a
refcount that did not grow, and a child list that lost at most some
elements.  This is what a destruction cascade can do to a node it does
not free. -/
def ShrinksAt (st st' : FsState) (j : NodeId) : Prop :=
  ∀ m', getNode st' j = some m' →
    ∃ m, getNode st j = some m ∧ m'.name = m.name ∧ m'.parent = m.parent ∧
      m'.deleted = m.deleted ∧ m'.handles = m.handles ∧
      m'.dirhandles = m.dirhandles ∧ m'.refcount ≤ m.refcount ∧
      m'.children.Sublist m.children

/-- A destruction cascade only shrinks the state: every surviving node
shrank, the active set lost members only, and the allocation cursor is
untouched. -/
def Shrinks (st st' : FsState) : Prop :=
  (∀ j, ShrinksAt st st' j) ∧ st'.active.Sublist st.active ∧ st'.nextId = st.nextId

/-- Concrete one-node state used by witnesses. -/
def stW : FsState :=
  { nodes := [(5, node.initNode "x")], nextId := 6, active := [5] }

/-- Concrete root-plus-child state used by witnesses: the result of
CreateRoot for the path slash followed by Create of a child named
Pictures. -/
def stP : FsState :=
  { nodes := [(1, ⟨"Pictures", 1, [], some 0, [], [], false⟩),
              (0, ⟨"/", 3, [1], none, [], [], false⟩)],
    nextId := 2, active := [1, 0] }

/-- Concrete four-node state used by witnesses: a root with two
directories A and B, and a file f inside A. -/
def stR : FsState :=
  { nodes := [(3, ⟨"f", 1, [], some 1, [], [], false⟩),
              (2, ⟨"B", 1, [], some 0, [], [], false⟩),
              (1, ⟨"A", 2, [3], some 0, [], [], false⟩),
              (0, ⟨"/", 4, [1, 2], none, [], [], false⟩)],
    nextId := 4, active := [3, 2, 1, 0] }

/-- Like `stP` but with only one reference left on the root, so that
destroying the child cascades into destroying the root. -/
def stC : FsState :=
  { nodes := [(1, ⟨"Pictures", 1, [], some 0, [], [], false⟩),
              (0, ⟨"/", 1, [1], none, [], [], false⟩)],
    nextId := 2, active := [1, 0] }

/-! ## Lemmas about the arena primitives -/

theorem lookupNode_mem {l : List (NodeId × NodeData)} {j : NodeId} {m : NodeData}
    (h : lookupNode l j = some m) : (j, m) ∈ l := by
  induction l with
  | nil => simp [lookupNode] at h
  | cons kv rest ih =>
      obtain ⟨k, v⟩ := kv
      by_cases hk : k = j
      · subst hk
        simp [lookupNode] at h
        simp [h]
      · simp only [lookupNode, if_neg hk] at h
        exact List.mem_cons_of_mem _ (ih h)

theorem lookupNode_isSome_of_mem {l : List (NodeId × NodeData)} {j : NodeId} {m : NodeData}
    (h : (j, m) ∈ l) : (lookupNode l j).isSome = true := by
  induction l with
  | nil => simp at h
  | cons kv rest ih =>
      obtain ⟨k, v⟩ := kv
      rcases List.mem_cons.mp h with h1 | h1
      · cases h1
        simp [lookupNode]
      · by_cases hk : k = j
        · simp [lookupNode, hk]
        · simp only [lookupNode, if_neg hk]
          exact ih h1

theorem lookupNode_eq_of_mem_nodup {l : List (NodeId × NodeData)} {j : NodeId} {m : NodeData}
    (hnd : (l.map Prod.fst).Nodup) (h : (j, m) ∈ l) : lookupNode l j = some m := by
  induction l with
  | nil => simp at h
  | cons kv rest ih =>
      obtain ⟨k, v⟩ := kv
      simp only [List.map_cons, List.nodup_cons] at hnd
      rcases List.mem_cons.mp h with h1 | h1
      · cases h1
        simp [lookupNode]
      · have hk : k ≠ j := by
          intro he
          subst he
          exact hnd.1 (List.mem_map.mpr ⟨(k, m), h1, rfl⟩)
        simp only [lookupNode, if_neg hk]
        exact ih hnd.2 h1

theorem lookupNode_storeNode (l : List (NodeId × NodeData)) (id : NodeId) (n : NodeData)
    (j : NodeId) :
    lookupNode (storeNode l id n) j =
      if j = id then (lookupNode l id).map (fun _ => n) else lookupNode l j := by
  induction l with
  | nil => by_cases hj : j = id <;> simp [storeNode, lookupNode, hj]
  | cons kv rest ih =>
      obtain ⟨k, v⟩ := kv
      by_cases hk : k = id
      · subst hk
        by_cases hj : j = k
        · subst hj
          simp [storeNode, lookupNode]
        · simp [storeNode, lookupNode, hj, Ne.symm hj]
      · by_cases hjk : k = j
        · subst hjk
          simp [storeNode, if_neg hk, lookupNode, hk]
        · simp only [storeNode, if_neg hk, lookupNode, if_neg hjk]
          exact ih

theorem map_fst_storeNode (l : List (NodeId × NodeData)) (id : NodeId) (n : NodeData) :
    (storeNode l id n).map Prod.fst = l.map Prod.fst := by
  induction l with
  | nil => simp [storeNode]
  | cons kv rest ih =>
      obtain ⟨k, v⟩ := kv
      by_cases hk : k = id <;> simp [storeNode, hk, ih]

theorem lookupNode_dropNode (l : List (NodeId × NodeData)) (id : NodeId) (j : NodeId) :
    lookupNode (dropNode l id) j = if j = id then none else lookupNode l j := by
  induction l with
  | nil => by_cases hj : j = id <;> simp [dropNode, lookupNode, hj]
  | cons kv rest ih =>
      obtain ⟨k, v⟩ := kv
      by_cases hk : k = id
      · subst hk
        by_cases hj : j = k
        · subst hj
          simpa [dropNode, lookupNode] using ih
        · have hkj : ¬ k = j := fun h => hj h.symm
          simp [dropNode, lookupNode, hj, hkj, ih]
      · simp only [dropNode, if_neg hk]
        by_cases hjk : k = j
        · subst hjk
          simp [lookupNode, hk]
        · simp only [lookupNode, if_neg hjk]
          exact ih

theorem dropNode_sublist (l : List (NodeId × NodeData)) (id : NodeId) :
    (dropNode l id).Sublist l := by
  induction l with
  | nil => simp [dropNode]
  | cons kv rest ih =>
      obtain ⟨k, v⟩ := kv
      by_cases hk : k = id
      · simp only [dropNode, if_pos hk]
        exact ih.cons _
      · simp only [dropNode, if_neg hk]
        exact ih.cons₂ _

theorem getNode_setNode (st : FsState) (id : NodeId) (n : NodeData) (j : NodeId) :
    getNode (setNode st id n) j =
      if j = id then (getNode st id).map (fun _ => n) else getNode st j := by
  simpa [getNode, setNode] using lookupNode_storeNode st.nodes id n j

theorem getNode_setNode_self {st : FsState} {id : NodeId} {m : NodeData} (n : NodeData)
    (h : getNode st id = some m) : getNode (setNode st id n) id = some n := by
  simp [getNode_setNode, h]

theorem getNode_setNode_ne {st : FsState} {id : NodeId} (n : NodeData) {j : NodeId}
    (h : j ≠ id) : getNode (setNode st id n) j = getNode st j := by
  simp [getNode_setNode, h]

theorem setNode_active (st : FsState) (id : NodeId) (n : NodeData) :
    (setNode st id n).active = st.active := rfl

theorem setNode_nextId (st : FsState) (id : NodeId) (n : NodeData) :
    (setNode st id n).nextId = st.nextId := rfl

/-! ## C1: inode round trip and the untracked assertion -/

/-- C1: for a live (tracked) node, `FromInode (ToInode n)` passes the
CheckTracked assertion and returns exactly `n`; for an id that is no
longer tracked (its node was destroyed), `FromInode` hits the fatal
untracked assertion instead of returning. -/
theorem claim_C1_inode_roundtrip (st : FsState) (id : NodeId) :
    (id ∈ st.active →
      NodeTracker.CheckTracked st (node.ToInode id) = true ∧
      node.FromInode st (node.ToInode id) = some id) ∧
    (id ∉ st.active → node.FromInode st (node.ToInode id) = none) := by
  constructor
  · intro h
    simp [NodeTracker.CheckTracked, node.FromInode, node.ToInode, kEnableInodeTracking, h]
  · intro h
    simp [NodeTracker.CheckTracked, node.FromInode, node.ToInode, kEnableInodeTracking, h]

/-- Witness for C1 at a concrete state: id 5 is live, id 7 is not. -/
theorem claim_C1_witness :
    node.FromInode stW (node.ToInode 5) = some 5 ∧
    node.FromInode stW (node.ToInode 7) = none :=
  ⟨((claim_C1_inode_roundtrip stW 5).1 (by decide)).2,
   (claim_C1_inode_roundtrip stW 7).2 (by decide)⟩

/-! ## C4: CreateRoot -/

/-- C4: `CreateRoot` yields a parentless node whose refcount is exactly 2
immediately after construction, so one `Release(1)` cannot destroy it:
that call returns false and leaves the root live with refcount 1. -/
theorem claim_C4_createRoot (st : FsState) (path : String) (hA : st.nextId ∉ st.active) :
    ∃ st', node.CreateRoot st path = some (st.nextId, st') ∧
      getNode st' st.nextId = some ⟨path, 2, [], none, [], [], false⟩ ∧
      ∀ fuel, node.Release (fuel + 1) st' st.nextId 1 =
          some (false, setNode st' st.nextId ⟨path, 1, [], none, [], [], false⟩) ∧
        getNode (setNode st' st.nextId ⟨path, 1, [], none, [], [], false⟩) st.nextId =
          some ⟨path, 1, [], none, [], [], false⟩ := by
  refine ⟨⟨(st.nextId, ⟨path, 2, [], none, [], [], false⟩) :: st.nodes,
    st.nextId + 1, st.nextId :: st.active⟩, ?_, ?_, ?_⟩
  · simp [node.CreateRoot, node.construct, NodeTracker.NodeCreated, node.Acquire, node.initNode,
      kEnableInodeTracking, hA, getNode, setNode, lookupNode, storeNode]
  · simp [getNode, lookupNode]
  · intro fuel
    constructor
    · simp [node.Release, getNode, setNode, lookupNode, storeNode]
    · simp [getNode, setNode, lookupNode, storeNode]

/-- Witness for C4 at a concrete state. -/
theorem claim_C4_witness :
    (stW.nextId ∉ stW.active) ∧
    ∃ st', node.CreateRoot stW "/" = some (stW.nextId, st') ∧
      getNode st' stW.nextId = some ⟨"/", 2, [], none, [], [], false⟩ ∧
      ∀ fuel, node.Release (fuel + 1) st' stW.nextId 1 =
          some (false, setNode st' stW.nextId ⟨"/", 1, [], none, [], [], false⟩) ∧
        getNode (setNode st' stW.nextId ⟨"/", 1, [], none, [], [], false⟩) stW.nextId =
          some ⟨"/", 1, [], none, [], [], false⟩ :=
  ⟨by decide, claim_C4_createRoot stW "/" (by decide)⟩

/-! ## C10: Rename with the same parent only renames -/

/-- C10: renaming a node onto its current parent (also the null parent of
the root) only rewrites the name field: the node keeps its refcount,
every other node (in particular the parent and its child list) is
untouched, and the tracker active set is unchanged. -/
theorem claim_C10_rename_same_parent (fuel : Nat) (st : FsState) (id : NodeId) (n : NodeData)
    (nm : String) (h : getNode st id = some n) :
    node.Rename fuel st id nm n.parent = some (setNode st id { n with name := nm }) ∧
    getNode (setNode st id { n with name := nm }) id = some { n with name := nm } ∧
    (∀ j, j ≠ id → getNode (setNode st id { n with name := nm }) j = getNode st j) ∧
    (setNode st id { n with name := nm }).active = st.active ∧
    (setNode st id { n with name := nm }).nextId = st.nextId := by
  refine ⟨?_, getNode_setNode_self _ h, fun j hj => getNode_setNode_ne _ hj, rfl, rfl⟩
  simp [node.Rename, h]

/-- Witness for C10 at a concrete state. -/
theorem claim_C10_witness :
    node.Rename 3 stW 5 "y" (node.initNode "x").parent =
      some (setNode stW 5 { node.initNode "x" with name := "y" }) :=
  (claim_C10_rename_same_parent 3 stW 5 (node.initNode "x") "y" (by decide)).1

theorem cascade_active (fuel : Nat) :
    (∀ st id c r, node.Release fuel st id c = some r →
        r.2.active.Sublist st.active ∧ r.2.nextId = st.nextId) ∧
    (∀ st id st', node.destroyNode fuel st id = some st' →
        st'.active.Sublist st.active ∧ st'.nextId = st.nextId) ∧
    (∀ st id st', node.RemoveFromParent fuel st id = some st' →
        st'.active.Sublist st.active ∧ st'.nextId = st.nextId) := by
  induction fuel with
  | zero =>
      refine ⟨?_, ?_, ?_⟩
      · intro st id c r h
        simp [node.Release] at h
      · intro st id st' h
        simp [node.destroyNode] at h
      · intro st id st' h
        simp [node.RemoveFromParent] at h
  | succ fuel ih =>
      obtain ⟨ihR, ihD, ihF⟩ := ih
      refine ⟨?_, ?_, ?_⟩
      · intro st id c r h
        cases hg : getNode st id with
        | none => simp [node.Release, hg, bind, Option.bind] at h
        | some n =>
            simp only [node.Release, hg, bind, Option.bind] at h
            split at h
            · split at h
              · cases hd : node.destroyNode fuel
                    (setNode st id { n with refcount := n.refcount - c }) id with
                | none => rw [hd] at h; simp at h
                | some st2 =>
                    rw [hd] at h
                    simp only [Option.pure_def, Option.some.injEq] at h
                    subst h
                    have hact := (ihD _ _ _ hd).1
                    have hnext := (ihD _ _ _ hd).2
                    simpa [setNode] using ⟨hact, hnext⟩
              · simp only [Option.pure_def, Option.some.injEq] at h
                subst h
                exact ⟨List.Sublist.refl _, rfl⟩
            · simp only [Option.pure_def, Option.some.injEq] at h
              subst h
              exact ⟨List.Sublist.refl _, rfl⟩
      · intro st id st' h
        cases hf : node.RemoveFromParent fuel st id with
        | none => simp [node.destroyNode, hf, bind, Option.bind] at h
        | some st1 =>
            cases hn : getNode st1 id with
            | none => simp [node.destroyNode, hf, hn, bind, Option.bind] at h
            | some n =>
                cases hdel : NodeTracker.NodeDeleted
                    (setNode st1 id { n with handles := [], dirhandles := [] }) id with
                | none => simp [node.destroyNode, hf, hn, hdel, bind, Option.bind] at h
                | some st3 =>
                    simp only [node.destroyNode, hf, hn, hdel, bind, Option.bind,
                      Option.pure_def, Option.some.injEq] at h
                    subst h
                    have h1 := (ihF _ _ _ hf).1
                    have h2 := (ihF _ _ _ hf).2
                    unfold NodeTracker.NodeDeleted at hdel
                    simp only [kEnableInodeTracking, if_true] at hdel
                    split at hdel
                    · simp only [Option.some.injEq] at hdel
                      subst hdel
                      refine ⟨?_, h2⟩
                      exact ((st1.active.erase_sublist id).trans h1)
                    · simp at hdel
      · intro st id st' h
        cases hg : getNode st id with
        | none => simp [node.RemoveFromParent, hg, bind, Option.bind] at h
        | some n =>
            cases hp : n.parent with
            | none =>
                simp only [node.RemoveFromParent, hg, hp, bind, Option.bind,
                  Option.pure_def, Option.some.injEq] at h
                subst h
                exact ⟨List.Sublist.refl _, rfl⟩
            | some p =>
                cases hpn : getNode st p with
                | none => simp [node.RemoveFromParent, hg, hp, hpn, bind, Option.bind] at h
                | some pn =>
                    simp only [node.RemoveFromParent, hg, hp, hpn, bind, Option.bind] at h
                    split at h
                    · cases hrel : node.Release fuel
                          (setNode st p { pn with children := pn.children.erase id }) p 1 with
                      | none => rw [hrel] at h; simp at h
                      | some br =>
                          obtain ⟨b, st2⟩ := br
                          rw [hrel] at h
                          simp only at h
                          cases hn2 : getNode st2 id with
                          | none => rw [hn2] at h; simp at h
                          | some n2 =>
                              rw [hn2] at h
                              simp only [Option.pure_def, Option.some.injEq] at h
                              subst h
                              have h1 := (ihR _ _ _ _ hrel).1
                              have h2 := (ihR _ _ _ _ hrel).2
                              exact ⟨h1, h2⟩
                    · simp at h

/-- Once `destroyNode` finishes, the node is gone from the arena and
from the tracker active set. -/
theorem destroyNode_not_live (fuel : Nat) (st : FsState) (id : NodeId) (st' : FsState)
    (hnd : st.active.Nodup) (h : node.destroyNode fuel st id = some st') :
    getNode st' id = none ∧ id ∉ st'.active := by
  cases fuel with
  | zero => simp [node.destroyNode] at h
  | succ fuel =>
      cases hf : node.RemoveFromParent fuel st id with
      | none => simp [node.destroyNode, hf, bind, Option.bind] at h
      | some st1 =>
          cases hn : getNode st1 id with
          | none => simp [node.destroyNode, hf, hn, bind, Option.bind] at h
          | some n =>
              cases hdel : NodeTracker.NodeDeleted
                  (setNode st1 id { n with handles := [], dirhandles := [] }) id with
              | none => simp [node.destroyNode, hf, hn, hdel, bind, Option.bind] at h
              | some st3 =>
                  simp only [node.destroyNode, hf, hn, hdel, bind, Option.bind,
                    Option.pure_def, Option.some.injEq] at h
                  subst h
                  constructor
                  · simp [getNode, lookupNode_dropNode]
                  · have hsub := ((cascade_active fuel).2.2 _ _ _ hf).1
                    have hnd1 : st1.active.Nodup := hsub.nodup hnd
                    unfold NodeTracker.NodeDeleted at hdel
                    simp only [kEnableInodeTracking, if_true] at hdel
                    split at hdel
                    · simp only [Option.some.injEq] at hdel
                      subst hdel
                      intro hmem
                      simp only [setNode_active] at hmem
                      exact absurd ((List.Nodup.mem_erase_iff hnd1).mp hmem).1 (by simp)
                    · simp at hdel

/-! ## C2: Release -/

/-- C2: with `refcount >= count`, `Release(count)` subtracts `count` and
otherwise changes nothing; it destroys the node (removing it from the
arena and the tracker) and returns true exactly when the new refcount is
zero, returning false otherwise.  With `refcount < count` it is a no-op
returning false: refcount, deleted flag, parent link, children, and
tracker registration are all untouched because the whole state is. -/
theorem claim_C2_release (fuel : Nat) (st : FsState) (id : NodeId) (count : Nat) (n : NodeData)
    (h : getNode st id = some n) (hnd : st.active.Nodup) :
    (n.refcount < count → node.Release (fuel + 1) st id count = some (false, st)) ∧
    (count ≤ n.refcount → n.refcount - count ≠ 0 →
        node.Release (fuel + 1) st id count =
          some (false, setNode st id { n with refcount := n.refcount - count })) ∧
    (count ≤ n.refcount → n.refcount - count = 0 →
        ∀ b st', node.Release (fuel + 1) st id count = some (b, st') →
          b = true ∧ getNode st' id = none ∧ id ∉ st'.active) := by
  refine ⟨?_, ?_, ?_⟩
  · intro hlt
    simp [node.Release, h, bind, Option.bind, Nat.not_le.mpr hlt]
  · intro hle hne
    simp [node.Release, h, bind, Option.bind, hle, hne]
  · intro hle h0 b st' hr
    simp only [node.Release, h, bind, Option.bind, hle, if_true, h0, if_pos] at hr
    cases hd : node.destroyNode fuel (setNode st id { n with refcount := 0 }) id with
    | none => rw [hd] at hr; simp at hr
    | some st2 =>
        rw [hd] at hr
        simp only [Option.pure_def, Option.some.injEq, Prod.mk.injEq] at hr
        obtain ⟨hb, hst⟩ := hr
        subst hst
        have := destroyNode_not_live fuel _ id st2 (by simpa [setNode_active] using hnd) hd
        exact ⟨hb.symm, this.1, this.2⟩

/-- Witness for C2 at a concrete state: an over-release is a no-op. -/
theorem claim_C2_witness :
    node.Release (3 + 1) stW 5 1 = some (false, stW) :=
  (claim_C2_release 3 stW 5 1 (node.initNode "x") (by decide) (by decide)).1 (by decide)

theorem storeNode_storeNode_same (l : List (NodeId × NodeData)) (id : NodeId) (a b : NodeData) :
    storeNode (storeNode l id a) id b = storeNode l id b := by
  induction l with
  | nil => simp [storeNode]
  | cons kv rest ih =>
      obtain ⟨k, v⟩ := kv
      by_cases hk : k = id <;> simp [storeNode, hk, ih]

/-- C3: `Create(parent, name)` returns a fresh node with refcount
exactly 1, deleted flag clear, registered in the tracker, whose parent
pointer is `parent` and which sits in the parent child list; the parent
gains exactly one refcount and one child, with its name, parent, deleted
flag and other children untouched, and every other node is unchanged. -/
theorem claim_C3_create (st : FsState) (p : NodeId) (nm : String) (pn : NodeData)
    (hp : getNode st p = some pn) (hA : st.nextId ∉ st.active)
    (hF : getNode st st.nextId = none) :
    ∃ st', node.Create st (some p) nm = some (st.nextId, st') ∧
      getNode st' st.nextId = some ⟨nm, 1, [], some p, [], [], false⟩ ∧
      st.nextId ∈ st'.active ∧
      getNode st' p =
        some { pn with children := pn.children ++ [st.nextId], refcount := pn.refcount + 1 } ∧
      st.nextId ∈ pn.children ++ [st.nextId] ∧
      (∀ j, j ≠ st.nextId → j ≠ p → getNode st' j = getNode st j) ∧
      st'.active = st.nextId :: st.active := by
  have hpne : p ≠ st.nextId := by
    intro he
    rw [he, hF] at hp
    exact Option.noConfusion hp
  have hp' : lookupNode st.nodes p = some pn := hp
  refine ⟨⟨(st.nextId, ⟨nm, 1, [], some p, [], [], false⟩) ::
      storeNode st.nodes p
        { pn with children := pn.children ++ [st.nextId], refcount := pn.refcount + 1 },
      st.nextId + 1, st.nextId :: st.active⟩, ?_, ?_, ?_, ?_, ?_, ?_, ?_⟩
  · simp [node.Create, node.construct, NodeTracker.NodeCreated, node.Acquire, node.AddToParent,
      node.initNode, kEnableInodeTracking, hA, getNode, setNode, lookupNode, storeNode, bind,
      Option.bind, hpne, Ne.symm hpne, hp', lookupNode_storeNode, storeNode_storeNode_same]
  · simp [getNode, lookupNode]
  · simp
  · simp only [getNode, lookupNode, if_neg (Ne.symm hpne)]
    rw [lookupNode_storeNode]
    simp [getNode, lookupNode] at hp
    simp [hp]
  · simp
  · intro j hj1 hj2
    simp only [getNode, lookupNode, if_neg (Ne.symm hj1)]
    rw [lookupNode_storeNode]
    simp [hj2]
  · rfl

/-- Witness for C3 at a concrete state. -/
theorem claim_C3_witness :
    getNode stW 5 = some (node.initNode "x") ∧
    ∃ st', node.Create stW (some 5) "kid" = some (stW.nextId, st') ∧
      getNode st' stW.nextId = some ⟨"kid", 1, [], some 5, [], [], false⟩ ∧
      stW.nextId ∈ st'.active ∧
      getNode st' 5 =
        some { node.initNode "x" with
          children := (node.initNode "x").children ++ [stW.nextId],
          refcount := (node.initNode "x").refcount + 1 } ∧
      stW.nextId ∈ (node.initNode "x").children ++ [stW.nextId] ∧
      (∀ j, j ≠ stW.nextId → j ≠ 5 → getNode st' j = getNode stW j) ∧
      st'.active = stW.nextId :: stW.active :=
  ⟨by decide, claim_C3_create stW 5 "kid" (node.initNode "x") (by decide) (by decide) (by decide)⟩

theorem scanChildren_found (st : FsState) (nm : String) (acq : Bool) (l : List NodeId)
    (c : NodeId) (st' : FsState) (h : node.scanChildren st nm acq l = some (some c, st')) :
    c ∈ l ∧ ∃ cn, getNode st c = some cn ∧ node.caseEq nm cn.name = true ∧
      cn.deleted = false ∧
      (acq = true → st' = setNode st c { cn with refcount := cn.refcount + 1 }) ∧
      (acq = false → st' = st) := by
  induction l with
  | nil => simp [node.scanChildren] at h
  | cons d rest ih =>
      cases hg : getNode st d with
      | none => simp [node.scanChildren, hg, bind, Option.bind] at h
      | some dn =>
          simp only [node.scanChildren, hg, bind, Option.bind] at h
          split at h
          · rename_i hcond
            have hcond' := hcond
            simp only [Bool.and_eq_true] at hcond'
            obtain ⟨h1, h2⟩ := hcond'
            cases acq with
            | false =>
                simp only [Bool.false_eq_true, if_false, Option.pure_def,
                  Option.some.injEq, Prod.mk.injEq] at h
                obtain ⟨hdc, hst⟩ := h
                subst hdc
                subst hst
                exact ⟨List.mem_cons_self _ _, dn, hg, h1, (by simpa using h2),
                  by simp, fun _ => rfl⟩
            | true =>
                simp only [if_true, node.Acquire, hg, bind, Option.bind,
                  Option.pure_def, Option.some.injEq, Prod.mk.injEq] at h
                obtain ⟨hdc, hst⟩ := h
                subst hdc
                rw [← hst]
                exact ⟨List.mem_cons_self _ _, dn, hg, h1, (by simpa using h2),
                  fun _ => rfl, by simp⟩
          · have := ih h
            exact ⟨List.mem_cons_of_mem _ this.1, this.2⟩

theorem scanChildren_notfound (st : FsState) (nm : String) (acq : Bool) (l : List NodeId)
    (st' : FsState) (h : node.scanChildren st nm acq l = some (none, st')) :
    st' = st ∧ ∀ c ∈ l, ∀ cn, getNode st c = some cn →
      ¬(node.caseEq nm cn.name = true ∧ cn.deleted = false) := by
  induction l with
  | nil =>
      simp only [node.scanChildren, Option.pure_def, Option.some.injEq, Prod.mk.injEq] at h
      exact ⟨h.2.symm, by simp⟩
  | cons d rest ih =>
      cases hg : getNode st d with
      | none => simp [node.scanChildren, hg, bind, Option.bind] at h
      | some dn =>
          simp only [node.scanChildren, hg, bind, Option.bind] at h
          split at h
          · rename_i hcond
            cases acq with
            | false => simp at h
            | true =>
                simp only [if_true, node.Acquire, hg, bind, Option.bind,
                  Option.pure_def, Option.some.injEq, Prod.mk.injEq] at h
                exact absurd h.1 (by simp)
          · rename_i hcond
            have := ih h
            refine ⟨this.1, ?_⟩
            intro c hc cn hcn hcontra
            rcases List.mem_cons.mp hc with hc1 | hc1
            · subst hc1
              rw [hcn] at hg
              cases hg
              apply hcond
              simp [hcontra.1, hcontra.2]
            · exact this.2 c hc1 cn hcn hcontra

theorem scanChildren_none (st : FsState) (nm : String) (acq : Bool) (l : List NodeId)
    (hlive : ∀ c ∈ l, (getNode st c).isSome = true)
    (hno : ∀ c ∈ l, ∀ cn, getNode st c = some cn →
      ¬(node.caseEq nm cn.name = true ∧ cn.deleted = false)) :
    node.scanChildren st nm acq l = some (none, st) := by
  induction l with
  | nil => simp [node.scanChildren]
  | cons d rest ih =>
      cases hg : getNode st d with
      | none =>
          have := hlive d (List.mem_cons_self _ _)
          rw [hg] at this
          simp at this
      | some dn =>
          have hcond : ¬ (node.caseEq nm dn.name && !dn.deleted) = true := by
            intro hb
            simp only [Bool.and_eq_true] at hb
            obtain ⟨h1, h2⟩ := hb
            exact hno d (List.mem_cons_self _ _) dn hg ⟨h1, (by simpa using h2)⟩
          simp only [node.scanChildren, hg, bind, Option.bind, if_neg hcond]
          exact ih (fun c hc => hlive c (List.mem_cons_of_mem _ hc))
            (fun c hc => hno c (List.mem_cons_of_mem _ hc))

/-- C8: `LookupChildByName(name, acquire)` returns (only) a child of the
parent whose name matches case-insensitively and whose deleted flag is
clear, incrementing exactly that child refcount by one iff `acquire`;
when no live child matches it returns the null result and, with
`acquire` false or true alike, leaves the state untouched. -/
theorem claim_C8_lookupChildByName (st : FsState) (id : NodeId) (pn : NodeData) (nm : String)
    (acq : Bool) (hp : getNode st id = some pn) :
    (∀ c st', node.LookupChildByName st id nm acq = some (some c, st') →
        c ∈ pn.children ∧ ∃ cn, getNode st c = some cn ∧ node.caseEq nm cn.name = true ∧
          cn.deleted = false ∧
          (acq = true → st' = setNode st c { cn with refcount := cn.refcount + 1 }) ∧
          (acq = false → st' = st)) ∧
    (∀ st', node.LookupChildByName st id nm acq = some (none, st') →
        st' = st ∧ ∀ c ∈ pn.children, ∀ cn, getNode st c = some cn →
          ¬(node.caseEq nm cn.name = true ∧ cn.deleted = false)) ∧
    ((∀ c ∈ pn.children, (getNode st c).isSome = true) →
      (∀ c ∈ pn.children, ∀ cn, getNode st c = some cn →
          ¬(node.caseEq nm cn.name = true ∧ cn.deleted = false)) →
      node.LookupChildByName st id nm acq = some (none, st)) := by
  refine ⟨?_, ?_, ?_⟩
  · intro c st' h
    simp only [node.LookupChildByName, hp, bind, Option.bind] at h
    exact scanChildren_found st nm acq pn.children c st' h
  · intro st' h
    simp only [node.LookupChildByName, hp, bind, Option.bind] at h
    exact scanChildren_notfound st nm acq pn.children st' h
  · intro h1 h2
    simp only [node.LookupChildByName, hp, bind, Option.bind]
    exact scanChildren_none st nm acq pn.children h1 h2

/-- Witness for C8 at a concrete state: no child of the root matches
the name Videos, so the lookup returns the null result and leaves the
state untouched. -/
theorem claim_C8_witness :
    getNode stP 0 = some ⟨"/", 3, [1], none, [], [], false⟩ ∧
    node.LookupChildByName stP 0 "Videos" false = some (none, stP) :=
  ⟨by decide,
   (claim_C8_lookupChildByName stP 0 ⟨"/", 3, [1], none, [], [], false⟩ "Videos" false
      (by decide)).2.2 (by decide)
    (by
      intro c hc cn hcn
      simp only [List.mem_singleton] at hc
      subst hc
      rw [show getNode stP 1 = some ⟨"Pictures", 1, [], some 0, [], [], false⟩ from rfl] at hcn
      injection hcn with h
      subst h
      decide)⟩

/-- C7: `SetDeleted` only sets the deleted flag of its node: refcount,
name, parent pointer, handles, every other node (hence the membership of
this node in its parent child list) and the tracker registration are
unchanged, and `GetParent` answers as before; but a name lookup on the
parent can no longer return this node. -/
theorem claim_C7_setDeleted (st : FsState) (id : NodeId) (n : NodeData)
    (h : getNode st id = some n) :
    node.SetDeleted st id = some (setNode st id { n with deleted := true }) ∧
    getNode (setNode st id { n with deleted := true }) id = some { n with deleted := true } ∧
    (∀ j, j ≠ id → getNode (setNode st id { n with deleted := true }) j = getNode st j) ∧
    (setNode st id { n with deleted := true }).active = st.active ∧
    node.GetParent (setNode st id { n with deleted := true }) id = some n.parent ∧
    (∀ p acq c st'',
      node.LookupChildByName (setNode st id { n with deleted := true }) p n.name acq =
        some (some c, st'') → c ≠ id) := by
  have hself : getNode (setNode st id { n with deleted := true }) id =
      some { n with deleted := true } := getNode_setNode_self _ h
  refine ⟨by simp [node.SetDeleted, h, bind, Option.bind], hself,
    fun j hj => getNode_setNode_ne _ hj, rfl, ?_, ?_⟩
  · simp [node.GetParent, hself, bind, Option.bind]
  · intro p acq c st'' hlk hc
    cases hpp : getNode (setNode st id { n with deleted := true }) p with
    | none => simp [node.LookupChildByName, hpp, bind, Option.bind] at hlk
    | some pn2 =>
        simp only [node.LookupChildByName, hpp, bind, Option.bind] at hlk
        obtain ⟨-, cn, hcn, -, hdel, -⟩ :=
          scanChildren_found _ _ acq pn2.children _ st'' hlk
        rw [hc, hself] at hcn
        injection hcn with hcn'
        rw [← hcn'] at hdel
        simp at hdel

/-- Witness for C7 at a concrete state. -/
theorem claim_C7_witness :
    node.SetDeleted stP 1 =
      some (setNode stP 1
        { (⟨"Pictures", 1, [], some 0, [], [], false⟩ : NodeData) with deleted := true }) :=
  (claim_C7_setDeleted stP 1 ⟨"Pictures", 1, [], some 0, [], [], false⟩ (by decide)).1

/-- C5: renaming a node to a different parent moves it: afterwards it
carries the new name, sits in the child list of the new parent and no
longer in the old one, its parent pointer is the new parent, the old
parent lost exactly one reference, the new parent gained exactly one,
and the refcount of the node itself (and every other node, and the
tracker state) is unchanged. -/
theorem claim_C5_rename_cross_parent (fuel : Nat) (st : FsState) (id po pq : NodeId)
    (n pon pqn : NodeData) (nm : String)
    (hn : getNode st id = some n)
    (hpo : n.parent = some po)
    (hpon : getNode st po = some pon)
    (hrc : 2 ≤ pon.refcount)
    (hcount : pon.children.count id = 1)
    (hpq : getNode st pq = some pqn)
    (hne : pq ≠ po) (hid1 : id ≠ po) (hid2 : id ≠ pq) :
    ∃ st', node.Rename (fuel + 2) st id nm (some pq) = some st' ∧
      getNode st' id = some { n with name := nm, parent := some pq } ∧
      getNode st' po = some { pon with refcount := pon.refcount - 1, children := pon.children.erase id } ∧
      getNode st' pq = some { pqn with refcount := pqn.refcount + 1, children := pqn.children ++ [id] } ∧
      id ∉ pon.children.erase id ∧
      id ∈ pqn.children ++ [id] ∧
      (∀ j, j ≠ id → j ≠ po → j ≠ pq → getNode st' j = getNode st j) ∧
      st'.active = st.active ∧ st'.nextId = st.nextId := by
  obtain ⟨na, ra, ca, pa, ha, da, la⟩ := n
  obtain ⟨nb, rb, cb, pb, hb, db, lb⟩ := pon
  obtain ⟨nc, rc, cc, pc, hc, dc, lc⟩ := pqn
  obtain rfl : pa = some po := hpo
  simp only [NodeData.refcount, NodeData.children] at hrc hcount
  have hmem : id ∈ cb := by
    have h0 : 0 < cb.count id := by omega
    simpa using List.count_pos_iff.mp (by simpa using h0)
  have hnotmem : id ∉ cb.erase id := by
    intro hx
    have h1 := List.count_erase_self id cb
    have h2 : 0 < (cb.erase id).count id := List.count_pos_iff.mpr (by simpa using hx)
    rw [h1, hcount] at h2
    omega
  have hA : getNode (setNode st id (⟨nm, ra, ca, some po, ha, da, la⟩ : NodeData)) id = some (⟨nm, ra, ca, some po, ha, da, la⟩ : NodeData) := getNode_setNode_self _ hn
  have hApo : getNode (setNode st id (⟨nm, ra, ca, some po, ha, da, la⟩ : NodeData)) po = some (⟨nb, rb, cb, pb, hb, db, lb⟩ : NodeData) := by
    rw [getNode_setNode_ne _ (Ne.symm hid1)]
    exact hpon
  have hBpo : getNode (setNode (setNode st id (⟨nm, ra, ca, some po, ha, da, la⟩ : NodeData)) po (⟨nb, rb, cb.erase id, pb, hb, db, lb⟩ : NodeData)) po = some (⟨nb, rb, cb.erase id, pb, hb, db, lb⟩ : NodeData) := getNode_setNode_self _ hApo
  have hCid : getNode (setNode (setNode (setNode st id (⟨nm, ra, ca, some po, ha, da, la⟩ : NodeData)) po (⟨nb, rb, cb.erase id, pb, hb, db, lb⟩ : NodeData)) po (⟨nb, rb - 1, cb.erase id, pb, hb, db, lb⟩ : NodeData)) id = some (⟨nm, ra, ca, some po, ha, da, la⟩ : NodeData) := by
    rw [getNode_setNode_ne _ hid1, getNode_setNode_ne _ hid1]
    exact hA
  have hCpo : getNode (setNode (setNode (setNode st id (⟨nm, ra, ca, some po, ha, da, la⟩ : NodeData)) po (⟨nb, rb, cb.erase id, pb, hb, db, lb⟩ : NodeData)) po (⟨nb, rb - 1, cb.erase id, pb, hb, db, lb⟩ : NodeData)) po = some (⟨nb, rb - 1, cb.erase id, pb, hb, db, lb⟩ : NodeData) := getNode_setNode_self _ hBpo
  have hDid : getNode (setNode (setNode (setNode (setNode st id (⟨nm, ra, ca, some po, ha, da, la⟩ : NodeData)) po (⟨nb, rb, cb.erase id, pb, hb, db, lb⟩ : NodeData)) po (⟨nb, rb - 1, cb.erase id, pb, hb, db, lb⟩ : NodeData)) id (⟨nm, ra, ca, none, ha, da, la⟩ : NodeData)) id = some (⟨nm, ra, ca, none, ha, da, la⟩ : NodeData) := getNode_setNode_self _ hCid
  have hDpq : getNode (setNode (setNode (setNode (setNode st id (⟨nm, ra, ca, some po, ha, da, la⟩ : NodeData)) po (⟨nb, rb, cb.erase id, pb, hb, db, lb⟩ : NodeData)) po (⟨nb, rb - 1, cb.erase id, pb, hb, db, lb⟩ : NodeData)) id (⟨nm, ra, ca, none, ha, da, la⟩ : NodeData)) pq = some (⟨nc, rc, cc, pc, hc, dc, lc⟩ : NodeData) := by
    rw [getNode_setNode_ne _ (Ne.symm hid2), getNode_setNode_ne _ hne,
      getNode_setNode_ne _ hne, getNode_setNode_ne _ (Ne.symm hid2)]
    exact hpq
  have hEid : getNode (setNode (setNode (setNode (setNode (setNode st id (⟨nm, ra, ca, some po, ha, da, la⟩ : NodeData)) po (⟨nb, rb, cb.erase id, pb, hb, db, lb⟩ : NodeData)) po (⟨nb, rb - 1, cb.erase id, pb, hb, db, lb⟩ : NodeData)) id (⟨nm, ra, ca, none, ha, da, la⟩ : NodeData)) id (⟨nm, ra, ca, some pq, ha, da, la⟩ : NodeData)) id = some (⟨nm, ra, ca, some pq, ha, da, la⟩ : NodeData) := getNode_setNode_self _ hDid
  have hEpq : getNode (setNode (setNode (setNode (setNode (setNode st id (⟨nm, ra, ca, some po, ha, da, la⟩ : NodeData)) po (⟨nb, rb, cb.erase id, pb, hb, db, lb⟩ : NodeData)) po (⟨nb, rb - 1, cb.erase id, pb, hb, db, lb⟩ : NodeData)) id (⟨nm, ra, ca, none, ha, da, la⟩ : NodeData)) id (⟨nm, ra, ca, some pq, ha, da, la⟩ : NodeData)) pq = some (⟨nc, rc, cc, pc, hc, dc, lc⟩ : NodeData) := by
    rw [getNode_setNode_ne _ (Ne.symm hid2)]
    exact hDpq
  have hFpq : getNode (setNode (setNode (setNode (setNode (setNode (setNode st id (⟨nm, ra, ca, some po, ha, da, la⟩ : NodeData)) po (⟨nb, rb, cb.erase id, pb, hb, db, lb⟩ : NodeData)) po (⟨nb, rb - 1, cb.erase id, pb, hb, db, lb⟩ : NodeData)) id (⟨nm, ra, ca, none, ha, da, la⟩ : NodeData)) id (⟨nm, ra, ca, some pq, ha, da, la⟩ : NodeData)) pq (⟨nc, rc, cc ++ [id], pc, hc, dc, lc⟩ : NodeData)) pq = some (⟨nc, rc, cc ++ [id], pc, hc, dc, lc⟩ : NodeData) := getNode_setNode_self _ hEpq
  have hrel : node.Release (fuel + 1) (setNode (setNode st id (⟨nm, ra, ca, some po, ha, da, la⟩ : NodeData)) po (⟨nb, rb, cb.erase id, pb, hb, db, lb⟩ : NodeData)) po 1 = some (false, (setNode (setNode (setNode st id (⟨nm, ra, ca, some po, ha, da, la⟩ : NodeData)) po (⟨nb, rb, cb.erase id, pb, hb, db, lb⟩ : NodeData)) po (⟨nb, rb - 1, cb.erase id, pb, hb, db, lb⟩ : NodeData))) := by
    have h1 : (1 : Nat) ≤ rb := by omega
    have h2 : ¬ (rb - 1 = 0) := by omega
    simp only [node.Release, hBpo, bind, Option.bind, NodeData.refcount]
    rw [if_pos h1, if_neg h2]
    rfl
  have hrfp : node.RemoveFromParent (fuel + 2) (setNode st id (⟨nm, ra, ca, some po, ha, da, la⟩ : NodeData)) id = some (setNode (setNode (setNode (setNode st id (⟨nm, ra, ca, some po, ha, da, la⟩ : NodeData)) po (⟨nb, rb, cb.erase id, pb, hb, db, lb⟩ : NodeData)) po (⟨nb, rb - 1, cb.erase id, pb, hb, db, lb⟩ : NodeData)) id (⟨nm, ra, ca, none, ha, da, la⟩ : NodeData)) := by
    simp only [node.RemoveFromParent, hA, bind, Option.bind, NodeData.parent, NodeData.children,
      hApo]
    rw [if_pos hmem, hrel]
    simp only [hCid, bind, Option.bind, Option.pure_def]
  have hadd : node.AddToParent (setNode (setNode (setNode (setNode st id (⟨nm, ra, ca, some po, ha, da, la⟩ : NodeData)) po (⟨nb, rb, cb.erase id, pb, hb, db, lb⟩ : NodeData)) po (⟨nb, rb - 1, cb.erase id, pb, hb, db, lb⟩ : NodeData)) id (⟨nm, ra, ca, none, ha, da, la⟩ : NodeData)) id (some pq) = some (setNode (setNode (setNode (setNode (setNode (setNode (setNode st id (⟨nm, ra, ca, some po, ha, da, la⟩ : NodeData)) po (⟨nb, rb, cb.erase id, pb, hb, db, lb⟩ : NodeData)) po (⟨nb, rb - 1, cb.erase id, pb, hb, db, lb⟩ : NodeData)) id (⟨nm, ra, ca, none, ha, da, la⟩ : NodeData)) id (⟨nm, ra, ca, some pq, ha, da, la⟩ : NodeData)) pq (⟨nc, rc, cc ++ [id], pc, hc, dc, lc⟩ : NodeData)) pq (⟨nc, rc + 1, cc ++ [id], pc, hc, dc, lc⟩ : NodeData)) := by
    simp only [node.AddToParent, hDid, hDpq, bind, Option.bind, NodeData.parent,
      NodeData.children]
    simp only [if_true]
    simp only [hEpq, bind, Option.bind, node.Acquire, hFpq, Option.pure_def,
      NodeData.refcount, NodeData.children]
  refine ⟨(setNode (setNode (setNode (setNode (setNode (setNode (setNode st id (⟨nm, ra, ca, some po, ha, da, la⟩ : NodeData)) po (⟨nb, rb, cb.erase id, pb, hb, db, lb⟩ : NodeData)) po (⟨nb, rb - 1, cb.erase id, pb, hb, db, lb⟩ : NodeData)) id (⟨nm, ra, ca, none, ha, da, la⟩ : NodeData)) id (⟨nm, ra, ca, some pq, ha, da, la⟩ : NodeData)) pq (⟨nc, rc, cc ++ [id], pc, hc, dc, lc⟩ : NodeData)) pq (⟨nc, rc + 1, cc ++ [id], pc, hc, dc, lc⟩ : NodeData)), ?_, ?_, ?_, ?_, hnotmem, by simp, ?_, rfl, rfl⟩
  · simp only [node.Rename, hn, bind, Option.bind]
    split
    · rename_i hcontra
      exfalso
      simp only [NodeData.parent, Option.some.injEq] at hcontra
      exact hne hcontra
    · rw [hrfp]
      simp only [bind, Option.bind]
      exact hadd
  · rw [getNode_setNode_ne _ hid2, getNode_setNode_ne _ hid2]
    exact hEid
  · rw [getNode_setNode_ne _ (Ne.symm hne), getNode_setNode_ne _ (Ne.symm hne),
      getNode_setNode_ne _ (Ne.symm hid1), getNode_setNode_ne _ (Ne.symm hid1)]
    exact hCpo
  · exact getNode_setNode_self _ hFpq
  · intro j hj1 hj2 hj3
    rw [getNode_setNode_ne _ hj3, getNode_setNode_ne _ hj3, getNode_setNode_ne _ hj1,
      getNode_setNode_ne _ hj1, getNode_setNode_ne _ hj2, getNode_setNode_ne _ hj2,
      getNode_setNode_ne _ hj1]

/-- Witness for C5 at a concrete state: the file f moves from directory
A (id 1) to directory B (id 2). -/
theorem claim_C5_witness :
    ∃ st', node.Rename (0 + 2) stR 3 "f2" (some 2) = some st' ∧
      getNode st' 3 = some { (⟨"f", 1, [], some 1, [], [], false⟩ : NodeData) with
        name := "f2", parent := some 2 } ∧
      getNode st' 1 = some { (⟨"A", 2, [3], some 0, [], [], false⟩ : NodeData) with
        refcount := (⟨"A", 2, [3], some 0, [], [], false⟩ : NodeData).refcount - 1,
        children := (⟨"A", 2, [3], some 0, [], [], false⟩ : NodeData).children.erase 3 } ∧
      getNode st' 2 = some { (⟨"B", 1, [], some 0, [], [], false⟩ : NodeData) with
        refcount := (⟨"B", 1, [], some 0, [], [], false⟩ : NodeData).refcount + 1,
        children := (⟨"B", 1, [], some 0, [], [], false⟩ : NodeData).children ++ [3] } ∧
      (3 : NodeId) ∉ ((⟨"A", 2, [3], some 0, [], [], false⟩ : NodeData)).children.erase 3 ∧
      (3 : NodeId) ∈ ((⟨"B", 1, [], some 0, [], [], false⟩ : NodeData)).children ++ [3] ∧
      (∀ j, j ≠ 3 → j ≠ 1 → j ≠ 2 → getNode st' j = getNode stR j) ∧
      st'.active = stR.active ∧ st'.nextId = stR.nextId :=
  claim_C5_rename_cross_parent 0 stR 3 1 2
    ⟨"f", 1, [], some 1, [], [], false⟩ ⟨"A", 2, [3], some 0, [], [], false⟩
    ⟨"B", 1, [], some 0, [], [], false⟩ "f2"
    (by decide) (by decide) (by decide) (by decide) (by decide) (by decide)
    (by decide) (by decide) (by decide)

/-- C9: when a Release drives the refcount of a node to zero, the
destructor itself calls Release(1) on the parent, so destroying a child
whose parent holds refcount 1 (with this child as its only child)
destroys the parent inside the same Release call: afterwards both are
gone from the arena and from the tracker. -/
theorem claim_C9_cascade (fuel : Nat) (st : FsState) (c p : NodeId)
    (na nb : String) (ha hb : List Handle) (da db : List DirHandle) (la lb : Bool)
    (rc : Nat)
    (hc : getNode st c = some (⟨na, rc, [], some p, ha, da, la⟩ : NodeData))
    (hp : getNode st p = some (⟨nb, 1, [c], none, hb, db, lb⟩ : NodeData))
    (hne : c ≠ p)
    (hact : c ∈ st.active) (hactp : p ∈ st.active) (hnd : st.active.Nodup) :
    ∃ st', node.Release (fuel + 6) st c rc = some (true, st') ∧
      getNode st' c = none ∧ getNode st' p = none ∧
      c ∉ st'.active ∧ p ∉ st'.active := by
  have hc' : lookupNode st.nodes c = some (⟨na, rc, [], some p, ha, da, la⟩ : NodeData) := hc
  have hp' : lookupNode st.nodes p = some (⟨nb, 1, [c], none, hb, db, lb⟩ : NodeData) := hp
  have hce : c ∈ st.active.erase p := (List.mem_erase_of_ne hne).mpr hact
  have hnp : ¬ (c = p) := hne
  have hpc : ¬ (p = c) := Ne.symm hne
  refine ⟨({ nodes := dropNode ((setNode (setNode ({ nodes := dropNode ((setNode (setNode (setNode (setNode st c (⟨na, 0, [], some p, ha, da, la⟩ : NodeData)) p (⟨nb, 1, [], none, hb, db, lb⟩ : NodeData)) p (⟨nb, 0, [], none, hb, db, lb⟩ : NodeData)) p (⟨nb, 0, [], none, [], [], lb⟩ : NodeData))).nodes p, nextId := st.nextId, active := st.active.erase p } : FsState) c (⟨na, 0, [], none, ha, da, la⟩ : NodeData)) c (⟨na, 0, [], none, [], [], la⟩ : NodeData))).nodes c, nextId := st.nextId, active := (st.active.erase p).erase c } : FsState), ?_, ?_, ?_, ?_, ?_⟩
  · simp [node.Release, node.destroyNode, node.RemoveFromParent, NodeTracker.NodeDeleted,
      kEnableInodeTracking, bind, Option.bind, Option.pure_def, getNode, setNode,
      lookupNode_storeNode, lookupNode_dropNode, hc', hp', hnp, hpc, hactp, hce]
  · simp [getNode, setNode, lookupNode_dropNode]
  · simp [getNode, setNode, lookupNode_storeNode, lookupNode_dropNode, hpc]
  · intro hmem
    have h1 : (st.active.erase p).Nodup := hnd.erase p
    exact absurd ((List.Nodup.mem_erase_iff h1).mp hmem).1 (by simp)
  · intro hmem
    have h2 := List.mem_of_mem_erase hmem
    exact absurd ((List.Nodup.mem_erase_iff hnd).mp h2).1 (by simp)

/-- Witness for C9 at a concrete state: releasing the only reference of
the child destroys the child and, in the same call, the root whose only
remaining reference was the one its child held. -/
theorem claim_C9_witness :
    ∃ st', node.Release (0 + 6) stC 1 1 = some (true, st') ∧
      getNode st' 1 = none ∧ getNode st' 0 = none ∧
      (1 : NodeId) ∉ st'.active ∧ (0 : NodeId) ∉ st'.active :=
  claim_C9_cascade 0 stC 1 0 "Pictures" "/" [] [] [] [] false false 1
    (by decide) (by decide) (by decide) (by decide) (by decide) (by decide)

/-! ## C6: the tree/tracker invariant -/

/-- Counterexample to C6 as stated: the state `stP` is reached by
CreateRoot then Create and satisfies the spec-stated invariant, but the
legal call `Release(3)` on the root (refcount 3: two own references plus
the one its child holds) destroys a node that still has a child.  The
surviving child keeps a parent pointer to the destroyed node, so the
occurs-once-in-the-live-parent clause of the invariant is violated:
Release does not preserve the invariant. -/
theorem claim_C6_counterexample :
    node.CreateRoot (⟨[], 0, []⟩ : FsState) "/" =
      some (0, (⟨[(0, ⟨"/", 2, [], none, [], [], false⟩)], 1, [0]⟩ : FsState)) ∧
    node.Create (⟨[(0, ⟨"/", 2, [], none, [], [], false⟩)], 1, [0]⟩ : FsState) (some 0)
      "Pictures" = some (1, stP) ∧
    specInvB stP = true ∧
    node.Release 5 stP 0 3 =
      some (true, (⟨[(1, ⟨"Pictures", 1, [], some 0, [], [], false⟩)], 2, [1]⟩ : FsState)) ∧
    specInvB (⟨[(1, ⟨"Pictures", 1, [], some 0, [], [], false⟩)], 2, [1]⟩ : FsState) = false := by
  refine ⟨by decide, by decide, by decide, by decide, by decide⟩

/-! Infrastructure for the amended C6: the strengthened invariant `InvE`
is preserved by every operation, with the one condition on `Release`
that the counterexample forces.  The exemption set `exc` tracks the
nodes transiently unlinked by an enclosing `RemoveFromParent` frame:
such a node sits in no child list and is excused from the occurs-once
clause until its parent pointer is cleared. -/

theorem ShrinksAt_refl (st : FsState) (j : NodeId) : ShrinksAt st st j := by
  intro m' hm'
  exact ⟨m', hm', rfl, rfl, rfl, rfl, rfl, le_refl _, List.Sublist.refl _⟩

theorem ShrinksAt_trans {st st1 st2 : FsState} {j : NodeId} (h1 : ShrinksAt st st1 j)
    (h2 : ShrinksAt st1 st2 j) : ShrinksAt st st2 j := by
  intro m' hm'
  obtain ⟨m1, hm1, e1, e2, e3, e4, e5, e6, e7⟩ := h2 m' hm'
  obtain ⟨m0, hm0, f1, f2, f3, f4, f5, f6, f7⟩ := h1 m1 hm1
  exact ⟨m0, hm0, e1.trans f1, e2.trans f2, e3.trans f3, e4.trans f4, e5.trans f5,
    e6.trans f6, e7.trans f7⟩

theorem Shrinks_refl (st : FsState) : Shrinks st st :=
  ⟨fun j => ShrinksAt_refl st j, List.Sublist.refl _, rfl⟩

theorem Shrinks_trans {st st1 st2 : FsState} (h1 : Shrinks st st1) (h2 : Shrinks st1 st2) :
    Shrinks st st2 :=
  ⟨fun j => ShrinksAt_trans (h1.1 j) (h2.1 j), h2.2.1.trans h1.2.1, h2.2.2.trans h1.2.2⟩

theorem getNode_setNode_isSome (st : FsState) (id : NodeId) (n : NodeData) (j : NodeId) :
    (getNode (setNode st id n) j).isSome = (getNode st j).isSome := by
  rw [getNode_setNode]
  by_cases hj : j = id
  · simp [hj]
  · simp [hj]

/-- Overwriting one node with a record that keeps its children list and
parent pointer (and keeps refcount at least the child count) preserves
the invariant: only name, refcount, deleted flag and handles moved. -/
theorem InvE_setNode_struct {exc : NodeId → Prop} {st : FsState} {x : NodeId} {n n' : NodeData}
    (hInv : InvE exc st) (h : getNode st x = some n)
    (hch : n'.children = n.children) (hpar : n'.parent = n.parent)
    (hrc : n'.children.length ≤ n'.refcount) :
    InvE exc (setNode st x n') := by
  obtain ⟨h1, h2, h3, h4, h5, h6, h7, h8⟩ := hInv
  have hget : ∀ j, getNode (setNode st x n') j = if j = x then some n' else getNode st j := by
    intro j
    rw [getNode_setNode]
    by_cases hj : j = x
    · simp [hj, h]
    · simp [hj]
  refine ⟨?_, ?_, ?_, ?_, ?_, h6, ?_, ?_⟩
  · rw [show (setNode st x n').nodes = storeNode st.nodes x n' from rfl, map_fst_storeNode]
    exact h1
  · intro j m hm
    rw [hget] at hm
    by_cases hj : j = x
    · exact h2 j n (by rw [hj]; exact h)
    · rw [if_neg hj] at hm
      exact h2 j m hm
  · intro j m hm c hc
    rw [hget] at hm
    by_cases hj : j = x
    · rw [if_pos hj] at hm
      injection hm with hm
      have hjx : getNode st j = some n := by rw [hj]; exact h
      rw [← hm, hch] at hc
      obtain ⟨cm, hcm, hcp⟩ := h3 j n hjx c hc
      by_cases hcx : c = x
      · refine ⟨n', ?_, ?_⟩
        · rw [hget, if_pos hcx]
        · rw [hpar]
          have he : cm = n := by
            rw [hcx, h] at hcm
            injection hcm with e
            exact e.symm
          rw [← he]
          exact hcp
      · refine ⟨cm, ?_, hcp⟩
        rw [hget, if_neg hcx]
        exact hcm
    · rw [if_neg hj] at hm
      obtain ⟨cm, hcm, hcp⟩ := h3 j m hm c hc
      by_cases hcx : c = x
      · refine ⟨n', ?_, ?_⟩
        · rw [hget, if_pos hcx]
        · rw [hpar]
          have he : cm = n := by
            rw [hcx, h] at hcm
            injection hcm with e
            exact e.symm
          rw [← he]
          exact hcp
      · refine ⟨cm, ?_, hcp⟩
        rw [hget, if_neg hcx]
        exact hcm
  · intro j m hm p hp hx
    rw [hget] at hm
    by_cases hj : j = x
    · rw [if_pos hj] at hm
      injection hm with hm
      have hjx : getNode st j = some n := by rw [hj]; exact h
      rw [← hm, hpar] at hp
      obtain ⟨pm, hpm, hpc⟩ := h4 j n hjx p hp hx
      by_cases hpx : p = x
      · refine ⟨n', ?_, ?_⟩
        · rw [hget, if_pos hpx]
        · rw [hch]
          have he : pm = n := by
            rw [hpx, h] at hpm
            injection hpm with e
            exact e.symm
          rw [← he]
          exact hpc
      · refine ⟨pm, ?_, hpc⟩
        rw [hget, if_neg hpx]
        exact hpm
    · rw [if_neg hj] at hm
      obtain ⟨pm, hpm, hpc⟩ := h4 j m hm p hp hx
      by_cases hpx : p = x
      · refine ⟨n', ?_, ?_⟩
        · rw [hget, if_pos hpx]
        · rw [hch]
          have he : pm = n := by
            rw [hpx, h] at hpm
            injection hpm with e
            exact e.symm
          rw [← he]
          exact hpc
      · refine ⟨pm, ?_, hpc⟩
        rw [hget, if_neg hpx]
        exact hpm
  · intro j m hm
    rw [hget] at hm
    by_cases hj : j = x
    · rw [if_pos hj] at hm
      injection hm with hm
      rw [← hm]
      exact hrc
    · rw [if_neg hj] at hm
      exact h5 j m hm
  · intro j
    rw [show (setNode st x n').active = st.active from rfl, getNode_setNode_isSome]
    exact h7 j
  · intro j hj q pm hpm
    rw [hget] at hpm
    by_cases hq : q = x
    · rw [if_pos hq] at hpm
      injection hpm with hpm
      rw [← hpm, hch]
      exact h8 j hj q n (by rw [hq]; exact h)
    · rw [if_neg hq] at hpm
      exact h8 j hj q pm hpm

/-- Freeing a node that has no children, no parent, and is referenced by
no one (which follows from the invariant) preserves the invariant, with
the node also erased from the tracker. -/
theorem InvE_erase {exc : NodeId → Prop} {st : FsState} {x : NodeId} {n : NodeData}
    (hInv : InvE exc st) (h : getNode st x = some n)
    (hch : n.children = []) (hpar : n.parent = none) :
    InvE exc (⟨dropNode st.nodes x, st.nextId, st.active.erase x⟩ : FsState) := by
  obtain ⟨h1, h2, h3, h4, h5, h6, h7, h8⟩ := hInv
  have hget : ∀ j, getNode (⟨dropNode st.nodes x, st.nextId, st.active.erase x⟩ : FsState) j =
      if j = x then none else getNode st j := by
    intro j
    exact lookupNode_dropNode st.nodes x j
  refine ⟨?_, ?_, ?_, ?_, ?_, ?_, ?_, ?_⟩
  · exact ((dropNode_sublist st.nodes x).map Prod.fst).nodup h1
  · intro j m hm
    rw [hget] at hm
    by_cases hj : j = x
    · rw [if_pos hj] at hm
      exact absurd hm (by simp)
    · rw [if_neg hj] at hm
      exact h2 j m hm
  · intro j m hm c hc
    rw [hget] at hm
    by_cases hj : j = x
    · rw [if_pos hj] at hm
      exact absurd hm (by simp)
    · rw [if_neg hj] at hm
      obtain ⟨cm, hcm, hcp⟩ := h3 j m hm c hc
      have hcx : c ≠ x := by
        intro he
        rw [he, h] at hcm
        injection hcm with e
        rw [← e, hpar] at hcp
        exact Option.noConfusion hcp
      refine ⟨cm, ?_, hcp⟩
      rw [hget, if_neg hcx]
      exact hcm
  · intro j m hm p hp hx
    rw [hget] at hm
    by_cases hj : j = x
    · rw [if_pos hj] at hm
      exact absurd hm (by simp)
    · rw [if_neg hj] at hm
      obtain ⟨pm, hpm, hpc⟩ := h4 j m hm p hp hx
      have hpx : p ≠ x := by
        intro he
        rw [he, h] at hpm
        injection hpm with e
        rw [← e, hch] at hpc
        simp at hpc
      refine ⟨pm, ?_, hpc⟩
      rw [hget, if_neg hpx]
      exact hpm
  · intro j m hm
    rw [hget] at hm
    by_cases hj : j = x
    · rw [if_pos hj] at hm
      exact absurd hm (by simp)
    · rw [if_neg hj] at hm
      exact h5 j m hm
  · exact h6.erase x
  · intro j
    show j ∈ st.active.erase x ↔ _
    rw [hget]
    by_cases hj : j = x
    · rw [if_pos hj, hj]
      simp [List.Nodup.mem_erase_iff h6]
    · rw [if_neg hj, List.Nodup.mem_erase_iff h6, h7 j]
      simp [hj]
  · intro j hj q pm hpm
    rw [hget] at hpm
    by_cases hq : q = x
    · rw [if_pos hq] at hpm
      exact absurd hpm (by simp)
    · rw [if_neg hq] at hpm
      exact h8 j hj q pm hpm

/-- Erasing a child from the child list of its parent preserves the
invariant with that child exempted from the occurs-once clause; since
the child occurred exactly once, it now occurs in no child list.  This
is the transient state inside `RemoveFromParent`. -/
theorem InvE_unlink_child {exc : NodeId → Prop} {st : FsState} {p x : NodeId} {pn xn : NodeData}
    (hInv : InvE exc st) (hp : getNode st p = some pn)
    (hx : getNode st x = some xn) (hxp : xn.parent = some p)
    (hcnt : pn.children.count x = 1) :
    InvE (fun j => exc j ∨ j = x)
      (setNode st p { pn with children := pn.children.erase x }) := by
  obtain ⟨h1, h2, h3, h4, h5, h6, h7, h8⟩ := hInv
  have hget : ∀ j, getNode (setNode st p { pn with children := pn.children.erase x }) j =
      if j = p then some { pn with children := pn.children.erase x } else getNode st j := by
    intro j
    rw [getNode_setNode]
    by_cases hj : j = p
    · simp [hj, hp]
    · simp [hj]
  have hrec : ∀ c cm, getNode st c = some cm →
      ∃ cm', getNode (setNode st p { pn with children := pn.children.erase x }) c = some cm' ∧
        cm'.parent = cm.parent ∧
        (∀ j, j ≠ x → cm'.children.count j = cm.children.count j) ∧
        cm'.children.length ≤ cm.children.length ∧ cm'.refcount = cm.refcount ∧
        cm'.children.Sublist cm.children := by
    intro c cm hcm
    by_cases hcp : c = p
    · have he : cm = pn := by
        rw [hcp, hp] at hcm
        injection hcm with e
        exact e.symm
      refine ⟨{ pn with children := pn.children.erase x }, by rw [hget, if_pos hcp], ?_, ?_,
        ?_, ?_, ?_⟩
      · rw [he]
      · intro j hj
        rw [he]
        exact List.count_erase_of_ne hj pn.children
      · rw [he]
        exact (pn.children.erase_sublist x).length_le
      · rw [he]
      · rw [he]
        exact pn.children.erase_sublist x
    · exact ⟨cm, by rw [hget, if_neg hcp]; exact hcm, rfl, fun j hj => rfl, le_refl _, rfl,
        List.Sublist.refl _⟩
  refine ⟨?_, ?_, ?_, ?_, ?_, h6, ?_, ?_⟩
  · rw [show (setNode st p { pn with children := pn.children.erase x }).nodes =
      storeNode st.nodes p { pn with children := pn.children.erase x } from rfl,
      map_fst_storeNode]
    exact h1
  · intro j m hm
    rw [hget] at hm
    by_cases hj : j = p
    · exact h2 j pn (by rw [hj]; exact hp)
    · rw [if_neg hj] at hm
      exact h2 j m hm
  · intro j m hm c hc
    rw [hget] at hm
    by_cases hj : j = p
    · rw [if_pos hj] at hm
      injection hm with hm
      have hjp : getNode st j = some pn := by rw [hj]; exact hp
      rw [← hm] at hc
      have hc' : c ∈ pn.children := List.mem_of_mem_erase hc
      obtain ⟨cm, hcm, hcp⟩ := h3 j pn hjp c hc'
      obtain ⟨cm', hcm', hpar', -, -, -, -⟩ := hrec c cm hcm
      exact ⟨cm', hcm', by rw [hpar']; exact hcp⟩
    · rw [if_neg hj] at hm
      obtain ⟨cm, hcm, hcp⟩ := h3 j m hm c hc
      obtain ⟨cm', hcm', hpar', -, -, -, -⟩ := hrec c cm hcm
      exact ⟨cm', hcm', by rw [hpar']; exact hcp⟩
  · intro j m hm q hq hx2
    have hxe : ¬ exc j := fun hh => hx2 (Or.inl hh)
    have hxx : j ≠ x := fun hh => hx2 (Or.inr hh)
    rw [hget] at hm
    by_cases hj : j = p
    · rw [if_pos hj] at hm
      injection hm with hm
      have hjp : getNode st j = some pn := by rw [hj]; exact hp
      have hq' : pn.parent = some q := by
        rw [← hm] at hq
        exact hq
      obtain ⟨pm, hpm, hpc⟩ := h4 j pn hjp q hq' hxe
      obtain ⟨pm', hpm', -, hcnt', -, -, -⟩ := hrec q pm hpm
      refine ⟨pm', hpm', ?_⟩
      rw [hcnt' j hxx]
      exact hpc
    · rw [if_neg hj] at hm
      obtain ⟨pm, hpm, hpc⟩ := h4 j m hm q hq hxe
      obtain ⟨pm', hpm', -, hcnt', -, -, -⟩ := hrec q pm hpm
      refine ⟨pm', hpm', ?_⟩
      rw [hcnt' j hxx]
      exact hpc
  · intro j m hm
    rw [hget] at hm
    by_cases hj : j = p
    · rw [if_pos hj] at hm
      injection hm with hm
      have hjp : getNode st j = some pn := by rw [hj]; exact hp
      rw [← hm]
      calc ({ pn with children := pn.children.erase x }).children.length
          ≤ pn.children.length := (pn.children.erase_sublist x).length_le
        _ ≤ pn.refcount := h5 j pn hjp
    · rw [if_neg hj] at hm
      exact h5 j m hm
  · intro j
    rw [show (setNode st p { pn with children := pn.children.erase x }).active = st.active
      from rfl, getNode_setNode_isSome]
    exact h7 j
  · intro j hj q pm hpm
    rw [hget] at hpm
    rcases hj with hje | hjx
    · by_cases hq : q = p
      · rw [if_pos hq] at hpm
        injection hpm with hpm
        rw [← hpm]
        intro hmem
        exact h8 j hje p pn hp (List.mem_of_mem_erase hmem)
      · rw [if_neg hq] at hpm
        exact h8 j hje q pm hpm
    · subst hjx
      by_cases hq : q = p
      · rw [if_pos hq] at hpm
        injection hpm with hpm
        rw [← hpm]
        intro hmem
        have := List.count_pos_iff.mpr (by simpa using hmem)
        rw [List.count_erase_self, hcnt] at this
        omega
      · rw [if_neg hq] at hpm
        intro hmem
        obtain ⟨cm, hcm, hcp⟩ := h3 q pm hpm j hmem
        rw [hx] at hcm
        injection hcm with e
        rw [← e, hxp] at hcp
        injection hcp with e2
        exact hq e2.symm

/-- Clearing the parent pointer of an exempt node (one occurring in no
child list) lifts the exemption: the node satisfies every clause of the
plain invariant again. -/
theorem InvE_clear_parent {exc : NodeId → Prop} {st : FsState} {x : NodeId} {n2 : NodeData}
    (hInv : InvE (fun j => exc j ∨ j = x) st) (h : getNode st x = some n2) :
    InvE exc (setNode st x { n2 with parent := none }) := by
  obtain ⟨h1, h2, h3, h4, h5, h6, h7, h8⟩ := hInv
  have hnochild : ∀ q pm, getNode st q = some pm → x ∉ pm.children :=
    fun q pm hpm => h8 x (Or.inr rfl) q pm hpm
  have hget : ∀ j, getNode (setNode st x { n2 with parent := none }) j =
      if j = x then some { n2 with parent := none } else getNode st j := by
    intro j
    rw [getNode_setNode]
    by_cases hj : j = x
    · simp [hj, h]
    · simp [hj]
  refine ⟨?_, ?_, ?_, ?_, ?_, h6, ?_, ?_⟩
  · rw [show (setNode st x { n2 with parent := none }).nodes =
      storeNode st.nodes x { n2 with parent := none } from rfl, map_fst_storeNode]
    exact h1
  · intro j m hm
    rw [hget] at hm
    by_cases hj : j = x
    · exact h2 j n2 (by rw [hj]; exact h)
    · rw [if_neg hj] at hm
      exact h2 j m hm
  · intro j m hm c hc
    rw [hget] at hm
    by_cases hj : j = x
    · rw [if_pos hj] at hm
      injection hm with hm
      have hjx : getNode st j = some n2 := by rw [hj]; exact h
      rw [← hm] at hc
      have hcx : c ≠ x := by
        intro he
        rw [he] at hc
        exact hnochild j n2 hjx hc
      obtain ⟨cm, hcm, hcp⟩ := h3 j n2 hjx c hc
      refine ⟨cm, ?_, hcp⟩
      rw [hget, if_neg hcx]
      exact hcm
    · rw [if_neg hj] at hm
      have hcx : c ≠ x := by
        intro he
        rw [he] at hc
        exact hnochild j m hm hc
      obtain ⟨cm, hcm, hcp⟩ := h3 j m hm c hc
      refine ⟨cm, ?_, hcp⟩
      rw [hget, if_neg hcx]
      exact hcm
  · intro j m hm q hq hxj
    rw [hget] at hm
    by_cases hj : j = x
    · rw [if_pos hj] at hm
      injection hm with hm
      rw [← hm] at hq
      simp at hq
    · rw [if_neg hj] at hm
      obtain ⟨pm, hpm, hpc⟩ := h4 j m hm q hq (fun hh => hh.elim hxj hj)
      by_cases hqx : q = x
      · refine ⟨{ n2 with parent := none }, by rw [hget, if_pos hqx], ?_⟩
        have he : pm = n2 := by
          rw [hqx, h] at hpm
          injection hpm with e
          exact e.symm
        rw [← he] at *
        exact hpc
      · refine ⟨pm, ?_, hpc⟩
        rw [hget, if_neg hqx]
        exact hpm
  · intro j m hm
    rw [hget] at hm
    by_cases hj : j = x
    · rw [if_pos hj] at hm
      injection hm with hm
      rw [← hm]
      exact h5 j n2 (by rw [hj]; exact h)
    · rw [if_neg hj] at hm
      exact h5 j m hm
  · intro j
    rw [show (setNode st x { n2 with parent := none }).active = st.active from rfl,
      getNode_setNode_isSome]
    exact h7 j
  · intro j hje q pm hpm
    rw [hget] at hpm
    by_cases hq : q = x
    · rw [if_pos hq] at hpm
      injection hpm with hpm
      rw [← hpm]
      exact h8 j (Or.inl hje) q n2 (by rw [hq]; exact h)
    · rw [if_neg hq] at hpm
      exact h8 j (Or.inl hje) q pm hpm

/-- Overwriting one node with a shrunken record shrinks the state. -/
theorem Shrinks_setNode {st : FsState} {x : NodeId} {n n' : NodeData}
    (h : getNode st x = some n) (e1 : n'.name = n.name) (e2 : n'.parent = n.parent)
    (e3 : n'.deleted = n.deleted) (e4 : n'.handles = n.handles)
    (e5 : n'.dirhandles = n.dirhandles) (e6 : n'.refcount ≤ n.refcount)
    (e7 : n'.children.Sublist n.children) :
    Shrinks st (setNode st x n') := by
  refine ⟨?_, List.Sublist.refl _, rfl⟩
  intro j m' hm'
  rw [getNode_setNode] at hm'
  by_cases hj : j = x
  · rw [if_pos hj] at hm'
    rw [h] at hm'
    simp only [Option.map_some'] at hm'
    injection hm' with e
    subst e
    exact ⟨n, by rw [hj]; exact h, e1, e2, e3, e4, e5, e6, e7⟩
  · rw [if_neg hj] at hm'
    exact ⟨m', hm', rfl, rfl, rfl, rfl, rfl, le_refl _, List.Sublist.refl _⟩

/-- The heart of the amended C6: a Release whose count leaves room for
the references held by the children (or an over-release no-op), the
destructor, and RemoveFromParent all preserve the strengthened
invariant, and only ever shrink the state. -/
theorem cascadeInvE : ∀ fuel : Nat,
    (∀ exc (st : FsState) id c n b st', InvE exc st → getNode st id = some n →
        (c + n.children.length ≤ n.refcount ∨ n.refcount < c) →
        node.Release fuel st id c = some (b, st') →
        InvE exc st' ∧ Shrinks st st') ∧
    (∀ exc (st : FsState) id n st', InvE exc st → getNode st id = some n → n.children = [] →
        node.destroyNode fuel st id = some st' →
        InvE exc st' ∧ Shrinks st st') ∧
    (∀ exc (st : FsState) id n st', InvE exc st → getNode st id = some n →
        node.RemoveFromParent fuel st id = some st' →
        InvE exc st' ∧ (∀ j, j ≠ id → ShrinksAt st st' j) ∧
          st'.active.Sublist st.active ∧ st'.nextId = st.nextId ∧
          ∃ rc2 ch2, rc2 ≤ n.refcount ∧ ch2.Sublist n.children ∧
            getNode st' id =
              some ⟨n.name, rc2, ch2, none, n.handles, n.dirhandles, n.deleted⟩) := by
  intro fuel
  induction fuel with
  | zero =>
      refine ⟨?_, ?_, ?_⟩
      · intro exc st id c n b st' _ _ _ h
        simp [node.Release] at h
      · intro exc st id n st' _ _ _ h
        simp [node.destroyNode] at h
      · intro exc st id n st' _ _ h
        simp [node.RemoveFromParent] at h
  | succ fuel ih =>
      obtain ⟨ihR, ihD, ihF⟩ := ih
      refine ⟨?_, ?_, ?_⟩
      · -- Release
        intro exc st id c n b st' hInv hn hside hr
        simp only [node.Release, hn, bind, Option.bind] at hr
        split at hr
        · rename_i hle
          split at hr
          · rename_i h0
            have h0' : n.refcount - c = 0 := by simpa using h0
            have hch : n.children = [] := by
              rcases hside with hside | hside
              · have : n.children.length = 0 := by omega
                exact List.length_eq_zero.mp this
              · omega
            have hrcle : n.refcount - c = 0 := h0'
            cases hd : node.destroyNode fuel
                (setNode st id { n with refcount := n.refcount - c }) id with
            | none =>
                rw [hd] at hr
                simp at hr
            | some st2 =>
                rw [hd] at hr
                simp only [Option.pure_def, Option.some.injEq, Prod.mk.injEq] at hr
                obtain ⟨hb, hst⟩ := hr
                subst hst
                have hInv1 : InvE exc (setNode st id { n with refcount := n.refcount - c }) :=
                  InvE_setNode_struct hInv hn rfl rfl (by simp [hch])
                have hget1 : getNode (setNode st id { n with refcount := n.refcount - c }) id =
                    some { n with refcount := n.refcount - c } :=
                  getNode_setNode_self _ hn
                have hres := ihD exc _ id { n with refcount := n.refcount - c } st2
                  hInv1 hget1 (by simpa using hch) hd
                refine ⟨hres.1, Shrinks_trans ?_ hres.2⟩
                exact Shrinks_setNode hn rfl rfl rfl rfl rfl (Nat.sub_le _ _)
                  (List.Sublist.refl _)
          · rename_i h0
            simp only [Option.pure_def, Option.some.injEq, Prod.mk.injEq] at hr
            obtain ⟨hb, hst⟩ := hr
            subst hst
            have hlen : n.children.length ≤ n.refcount - c := by
              rcases hside with hside | hside
              · omega
              · omega
            refine ⟨InvE_setNode_struct hInv hn rfl rfl (by simpa using hlen), ?_⟩
            exact Shrinks_setNode hn rfl rfl rfl rfl rfl (Nat.sub_le _ _)
              (List.Sublist.refl _)
        · simp only [Option.pure_def, Option.some.injEq, Prod.mk.injEq] at hr
          obtain ⟨hb, hst⟩ := hr
          subst hst
          exact ⟨hInv, Shrinks_refl st⟩
      · -- destroyNode
        intro exc st id n st' hInv hn hch hd
        cases hf : node.RemoveFromParent fuel st id with
        | none => simp [node.destroyNode, hf, bind, Option.bind] at hd
        | some st1 =>
            obtain ⟨hInv1, hsh, hsub, hnext, rc2, ch2, hrc2, hch2, hgid⟩ :=
              ihF exc st id n st1 hInv hn hf
            have hch2e : ch2 = [] := List.sublist_nil.mp (hch ▸ hch2)
            subst hch2e
            have hmem : id ∈ st1.active := by
              have h7 := hInv1.2.2.2.2.2.2.1
              exact (h7 id).mpr (by rw [hgid]; rfl)
            have hdel : NodeTracker.NodeDeleted
                (setNode st1 id
                  ⟨n.name, rc2, [], none, [], [], n.deleted⟩) id =
                some { setNode st1 id
                  ⟨n.name, rc2, [], none, [], [], n.deleted⟩ with
                    active := st1.active.erase id } := by
              simp only [NodeTracker.NodeDeleted, kEnableInodeTracking, if_true,
                setNode_active]
              rw [if_pos hmem]
            simp only [node.destroyNode, hf, hgid, bind, Option.bind, hdel,
              Option.pure_def, Option.some.injEq] at hd
            have hInv2 : InvE exc (setNode st1 id
                ⟨n.name, rc2, [], none, [], [], n.deleted⟩) :=
              InvE_setNode_struct hInv1 hgid rfl rfl (by simp)
            have hget2 : getNode (setNode st1 id
                ⟨n.name, rc2, [], none, [], [], n.deleted⟩) id =
                some ⟨n.name, rc2, [], none, [], [], n.deleted⟩ :=
              getNode_setNode_self _ hgid
            subst hd
            constructor
            · exact InvE_erase hInv2 hget2 rfl rfl
            · refine ⟨?_, ?_, ?_⟩
              · intro j m' hm'
                have hm2 : lookupNode (dropNode (setNode st1 id
                    (⟨n.name, rc2, [], none, [], [], n.deleted⟩ : NodeData)).nodes id) j =
                    some m' := hm'
                rw [lookupNode_dropNode] at hm2
                by_cases hj : j = id
                · rw [if_pos hj] at hm2
                  exact absurd hm2 (by simp)
                · rw [if_neg hj] at hm2
                  have hm1 : getNode st1 j = some m' := by
                    rw [← getNode_setNode_ne
                      (⟨n.name, rc2, [], none, [], [], n.deleted⟩ : NodeData) hj]
                    exact hm2
                  exact hsh j hj m' hm1
              · exact (st1.active.erase_sublist id).trans hsub
              · exact hnext
      · -- RemoveFromParent
        intro exc st id n st' hInv hn hf
        simp only [node.RemoveFromParent, hn, bind, Option.bind] at hf
        cases hp : n.parent with
        | none =>
            rw [hp] at hf
            simp only [Option.pure_def, Option.some.injEq] at hf
            subst hf
            refine ⟨hInv, fun j _ => ShrinksAt_refl st j, List.Sublist.refl _, rfl,
              n.refcount, n.children, le_refl _, List.Sublist.refl _, ?_⟩
            rw [show (⟨n.name, n.refcount, n.children, none, n.handles, n.dirhandles,
              n.deleted⟩ : NodeData) = n from by rw [← hp]]
            exact hn
        | some p =>
            rw [hp] at hf
            simp only at hf
            cases hpn : getNode st p with
            | none => rw [hpn] at hf; simp at hf
            | some pn =>
                rw [hpn] at hf
                simp only at hf
                split at hf
                · rename_i hmem
                  by_cases hex : exc id
                  · exact absurd hmem (hInv.2.2.2.2.2.2.2 id hex p pn hpn)
                  have hcnt : pn.children.count id = 1 := by
                    obtain ⟨pm, hpm, hpc⟩ := hInv.2.2.2.1 id n hn p hp hex
                    rw [hpn] at hpm
                    injection hpm with e
                    rw [e]
                    exact hpc
                  have hInv1 := InvE_unlink_child hInv hpn hn hp hcnt
                  have hget1 : getNode (setNode st p { pn with children := pn.children.erase id })
                      p = some { pn with children := pn.children.erase id } :=
                    getNode_setNode_self _ hpn
                  have hside' : 1 + (pn.children.erase id).length ≤ pn.refcount := by
                    have hlen := List.length_erase_of_mem hmem
                    have hlb := hInv.2.2.2.2.1 p pn hpn
                    have hc1 := List.count_le_length id pn.children
                    omega
                  cases hrel : node.Release fuel
                      (setNode st p { pn with children := pn.children.erase id }) p 1 with
                  | none => rw [hrel] at hf; simp at hf
                  | some br =>
                      obtain ⟨b2, st2⟩ := br
                      rw [hrel] at hf
                      simp only at hf
                      cases hn2 : getNode st2 id with
                      | none => rw [hn2] at hf; simp at hf
                      | some n2 =>
                          rw [hn2] at hf
                          simp only [Option.pure_def, Option.some.injEq] at hf
                          subst hf
                          obtain ⟨hInv2, hs12⟩ :=
                            ihR _ _ p 1 _ b2 st2 hInv1 hget1 (Or.inl (by simpa using hside'))
                              hrel
                          have hs01 : Shrinks st
                              (setNode st p { pn with children := pn.children.erase id }) :=
                            Shrinks_setNode hpn rfl rfl rfl rfl rfl (le_refl _)
                              (pn.children.erase_sublist id)
                          have hs02 := Shrinks_trans hs01 hs12
                          obtain ⟨m0, hm0, e1, e2, e3, e4, e5, e6, e7⟩ := hs02.1 id n2 hn2
                          have hm0n : m0 = n := by
                            rw [hn] at hm0
                            injection hm0 with e
                            exact e.symm
                          subst hm0n
                          refine ⟨InvE_clear_parent hInv2 hn2, ?_, ?_, ?_,
                            n2.refcount, n2.children, e6, e7, ?_⟩
                          · intro j hj m' hm'
                            rw [getNode_setNode_ne _ hj] at hm'
                            exact hs02.1 j m' hm'
                          · exact hs02.2.1
                          · exact hs02.2.2
                          · rw [getNode_setNode_self ({ n2 with parent := none }) hn2]
                            rw [← e1, ← e3, ← e4, ← e5]
                · rw [show ((none : Option FsState) = some st') ↔ False from by simp] at hf
                  exact hf.elim

theorem setNode_setNode_same (st : FsState) (x : NodeId) (a b : NodeData) :
    setNode (setNode st x a) x b = setNode st x b := by
  simp [setNode, storeNode_storeNode_same]

/-- Setting the parent pointer of a live, unparented node, with the node
exempted from the occurs-once clause: the transient first half of
`AddToParent`. -/
theorem InvE_set_parent {st : FsState} {x pq : NodeId} {n : NodeData}
    (hInv : TreeInv st) (hx : getNode st x = some n) (hxp : n.parent = none) :
    InvE (fun j => j = x) (setNode st x { n with parent := some pq }) := by
  obtain ⟨h1, h2, h3, h4, h5, h6, h7, -⟩ := hInv
  have hxnotin : ∀ q pm, getNode st q = some pm → x ∉ pm.children := by
    intro q pm hpm hmem
    obtain ⟨cm, hcm, hcp⟩ := h3 q pm hpm x hmem
    rw [hx] at hcm
    injection hcm with e
    rw [← e, hxp] at hcp
    exact Option.noConfusion hcp
  have hget : ∀ j, getNode (setNode st x { n with parent := some pq }) j =
      if j = x then some { n with parent := some pq } else getNode st j := by
    intro j
    rw [getNode_setNode]
    by_cases hj : j = x
    · simp [hj, hx]
    · simp [hj]
  refine ⟨?_, ?_, ?_, ?_, ?_, h6, ?_, ?_⟩
  · rw [show (setNode st x { n with parent := some pq }).nodes =
      storeNode st.nodes x { n with parent := some pq } from rfl, map_fst_storeNode]
    exact h1
  · intro j m hm
    rw [hget] at hm
    by_cases hj : j = x
    · exact h2 j n (by rw [hj]; exact hx)
    · rw [if_neg hj] at hm
      exact h2 j m hm
  · intro j m hm c hc
    rw [hget] at hm
    by_cases hj : j = x
    · rw [if_pos hj] at hm
      injection hm with hm
      have hjx : getNode st j = some n := by rw [hj]; exact hx
      rw [← hm] at hc
      have hcx : c ≠ x := by
        intro he
        rw [he] at hc
        exact hxnotin j n hjx hc
      obtain ⟨cm, hcm, hcp⟩ := h3 j n hjx c hc
      refine ⟨cm, ?_, hcp⟩
      rw [hget, if_neg hcx]
      exact hcm
    · rw [if_neg hj] at hm
      have hcx : c ≠ x := by
        intro he
        rw [he] at hc
        exact hxnotin j m hm hc
      obtain ⟨cm, hcm, hcp⟩ := h3 j m hm c hc
      refine ⟨cm, ?_, hcp⟩
      rw [hget, if_neg hcx]
      exact hcm
  · intro j m hm q hq hxj
    rw [hget] at hm
    by_cases hj : j = x
    · exact absurd hj hxj
    · rw [if_neg hj] at hm
      obtain ⟨pm, hpm, hpc⟩ := h4 j m hm q hq (by simp)
      by_cases hqx : q = x
      · refine ⟨{ n with parent := some pq }, by rw [hget, if_pos hqx], ?_⟩
        have he : pm = n := by
          rw [hqx, hx] at hpm
          injection hpm with e
          exact e.symm
        rw [he] at hpc
        exact hpc
      · refine ⟨pm, ?_, hpc⟩
        rw [hget, if_neg hqx]
        exact hpm
  · intro j m hm
    rw [hget] at hm
    by_cases hj : j = x
    · rw [if_pos hj] at hm
      injection hm with hm
      rw [← hm]
      exact h5 j n (by rw [hj]; exact hx)
    · rw [if_neg hj] at hm
      exact h5 j m hm
  · intro j
    rw [show (setNode st x { n with parent := some pq }).active = st.active from rfl,
      getNode_setNode_isSome]
    exact h7 j
  · intro j hj q pm hpm
    rw [hget] at hpm
    rw [hj]
    by_cases hq : q = x
    · rw [if_pos hq] at hpm
      injection hpm with hpm
      rw [← hpm]
      exact hxnotin q n (by rw [hq]; exact hx)
    · rw [if_neg hq] at hpm
      exact hxnotin q pm hpm

/-- Appending an exempted, parented-to-`pq` node to `pq`'s child list and
bumping `pq`'s refcount restores the full invariant: the second half of
`AddToParent`. -/
theorem InvE_link_child {st : FsState} {x pq : NodeId} {n pn : NodeData}
    (hInv : InvE (fun j => j = x) st)
    (hx : getNode st x = some n) (hxp : n.parent = some pq)
    (hpq : getNode st pq = some pn) :
    TreeInv (setNode st pq
      { pn with refcount := pn.refcount + 1, children := pn.children ++ [x] }) := by
  obtain ⟨h1, h2, h3, h4, h5, h6, h7, h8⟩ := hInv
  have hxnotin : ∀ q pm, getNode st q = some pm → x ∉ pm.children :=
    fun q pm hpm => h8 x rfl q pm hpm
  set P2 : NodeData :=
    { pn with refcount := pn.refcount + 1, children := pn.children ++ [x] } with hP2
  have hget : ∀ j, getNode (setNode st pq P2) j =
      if j = pq then some P2 else getNode st j := by
    intro j
    rw [getNode_setNode]
    by_cases hj : j = pq
    · simp [hj, hpq]
    · simp [hj]
  have hrecord : ∀ q pm, getNode st q = some pm →
      ∃ pm', getNode (setNode st pq P2) q = some pm' ∧ pm'.parent = pm.parent ∧
        ∀ j, j ≠ x → pm'.children.count j = pm.children.count j := by
    intro q pm hpm
    by_cases hq : q = pq
    · have he : pm = pn := by
        rw [hq, hpq] at hpm
        injection hpm with e
        exact e.symm
      refine ⟨P2, by rw [hget, if_pos hq], by rw [he, hP2], ?_⟩
      intro j hj
      rw [he, hP2]
      show (pn.children ++ [x]).count j = pn.children.count j
      have h0 : List.count j [x] = 0 := List.count_eq_zero.mpr (by simp [hj])
      rw [List.count_append, h0]
      omega
    · exact ⟨pm, by rw [hget, if_neg hq]; exact hpm, rfl, fun j hj => rfl⟩
  refine ⟨?_, ?_, ?_, ?_, ?_, h6, ?_, fun j hj => hj.elim⟩
  · rw [show (setNode st pq P2).nodes = storeNode st.nodes pq P2 from rfl,
      map_fst_storeNode]
    exact h1
  · intro j m hm
    rw [hget] at hm
    by_cases hj : j = pq
    · exact h2 j pn (by rw [hj]; exact hpq)
    · rw [if_neg hj] at hm
      exact h2 j m hm
  · intro j m hm c hc
    rw [hget] at hm
    by_cases hj : j = pq
    · rw [if_pos hj] at hm
      injection hm with hm
      rw [← hm] at hc
      have hc' : c ∈ pn.children ++ [x] := by
        rw [hP2] at hc
        exact hc
      rcases List.mem_append.mp hc' with hcl | hcr
      · obtain ⟨cm, hcm, hcp⟩ := h3 j pn (by rw [hj]; exact hpq) c hcl
        by_cases hcq : c = pq
        · refine ⟨P2, by rw [hget, if_pos hcq], ?_⟩
          have he : cm = pn := by
            rw [hcq, hpq] at hcm
            injection hcm with e
            exact e.symm
          rw [hP2]
          show pn.parent = some j
          rw [← he]
          exact hcp
        · refine ⟨cm, ?_, hcp⟩
          rw [hget, if_neg hcq]
          exact hcm
      · have hcx : c = x := by simpa using hcr
        subst hcx
        by_cases hxq : c = pq
        · refine ⟨P2, by rw [hget, if_pos hxq], ?_⟩
          have he : pn = n := by
            have h' := hpq
            rw [← hxq, hx] at h'
            injection h' with e
            exact e.symm
          rw [hP2]
          show pn.parent = some j
          rw [he, hxp, hj]
        · refine ⟨n, ?_, ?_⟩
          · rw [hget, if_neg hxq]
            exact hx
          · rw [hxp, hj]
    · rw [if_neg hj] at hm
      obtain ⟨cm, hcm, hcp⟩ := h3 j m hm c hc
      by_cases hcq : c = pq
      · refine ⟨P2, by rw [hget, if_pos hcq], ?_⟩
        have he : cm = pn := by
          rw [hcq, hpq] at hcm
          injection hcm with e
          exact e.symm
        rw [hP2]
        show pn.parent = some j
        rw [← he]
        exact hcp
      · refine ⟨cm, ?_, hcp⟩
        rw [hget, if_neg hcq]
        exact hcm
  · intro j m hm q hq hxj
    rw [hget] at hm
    by_cases hjx : j = x
    · have he2 : m.parent = some pq := by
        by_cases hj : j = pq
        · rw [if_pos hj] at hm
          injection hm with hm
          have hpx : pq = x := hj.symm.trans hjx
          have hpq' := hpq
          rw [hpx] at hpq'
          have hpn2 : pn = n := Option.some.inj (hpq'.symm.trans hx)
          rw [← hm, hP2]
          show pn.parent = some pq
          rw [hpn2]
          exact hxp
        · rw [if_neg hj, hjx, hx] at hm
          injection hm with hm
          rw [← hm]
          exact hxp
      rw [hq] at he2
      injection he2 with he2
      rw [he2]
      refine ⟨P2, by rw [hget, if_pos rfl], ?_⟩
      have hz : pn.children.count x = 0 := List.count_eq_zero.mpr (hxnotin pq pn hpq)
      rw [hP2, hjx]
      show (pn.children ++ [x]).count x = 1
      simp [List.count_append, hz]
    · by_cases hj : j = pq
      · rw [if_pos hj] at hm
        injection hm with hm
        have hjq : getNode st j = some pn := by rw [hj]; exact hpq
        have hq' : pn.parent = some q := by
          rw [← hm, hP2] at hq
          exact hq
        obtain ⟨pm, hpm, hpc⟩ := h4 j pn hjq q hq' hjx
        obtain ⟨pm', hpm', -, hcnt'⟩ := hrecord q pm hpm
        refine ⟨pm', hpm', ?_⟩
        rw [hcnt' j hjx]
        exact hpc
      · rw [if_neg hj] at hm
        obtain ⟨pm, hpm, hpc⟩ := h4 j m hm q hq hjx
        obtain ⟨pm', hpm', -, hcnt'⟩ := hrecord q pm hpm
        refine ⟨pm', hpm', ?_⟩
        rw [hcnt' j hjx]
        exact hpc
  · intro j m hm
    rw [hget] at hm
    by_cases hj : j = pq
    · rw [if_pos hj] at hm
      injection hm with hm
      rw [← hm, hP2]
      show (pn.children ++ [x]).length ≤ pn.refcount + 1
      have hlb := h5 j pn (by rw [hj]; exact hpq)
      simp only [List.length_append, List.length_singleton]
      omega
    · rw [if_neg hj] at hm
      exact h5 j m hm
  · intro j
    rw [show (setNode st pq P2).active = st.active from rfl, getNode_setNode_isSome]
    exact h7 j

/-- A successful `AddToParent` preserves the invariant and touches neither
the tracker nor the allocation cursor. -/
theorem TreeInv_AddToParent {st st' : FsState} {id p : NodeId}
    (hInv : TreeInv st) (h : node.AddToParent st id (some p) = some st') :
    TreeInv st' ∧ st'.active = st.active ∧ st'.nextId = st.nextId := by
  cases hn : getNode st id with
  | none => simp [node.AddToParent, hn, bind, Option.bind] at h
  | some n =>
    simp only [node.AddToParent, hn, bind, Option.bind] at h
    by_cases hpar : n.parent = none
    · rw [if_pos hpar] at h
      cases hp0 : getNode st p with
      | none => rw [hp0] at h; simp at h
      | some pn0 =>
        rw [hp0] at h
        simp only at h
        cases hp1 : getNode (setNode st id { n with parent := some p }) p with
        | none => rw [hp1] at h; simp at h
        | some pn =>
          rw [hp1] at h
          simp only [node.Acquire, bind, Option.bind] at h
          have hp2 : getNode (setNode (setNode st id { n with parent := some p }) p
              { pn with children := pn.children ++ [id] }) p =
              some { pn with children := pn.children ++ [id] } :=
            getNode_setNode_self _ hp1
          rw [hp2] at h
          simp only [Option.pure_def, Option.some.injEq] at h
          subst h
          have hInv1 : InvE (fun j => j = id) (setNode st id { n with parent := some p }) :=
            InvE_set_parent hInv hn hpar
          have hx1 : getNode (setNode st id { n with parent := some p }) id =
              some { n with parent := some p } := getNode_setNode_self _ hn
          have hmain : TreeInv (setNode (setNode st id { n with parent := some p }) p
              { pn with refcount := pn.refcount + 1, children := pn.children ++ [id] }) :=
            InvE_link_child hInv1 hx1 rfl hp1
          refine ⟨?_, rfl, rfl⟩
          rw [setNode_setNode_same]
          exact hmain
    · rw [if_neg hpar] at h
      simp at h

/-- Pushing a fresh, childless, unparented node onto the arena and the
tracker preserves the invariant: the heap/tracker effect of the `node`
constructor up to its `Acquire`. -/
theorem TreeInv_pushFresh {st : FsState} (hInv : TreeInv st) (v : NodeData)
    (hch : v.children = []) (hpar : v.parent = none) :
    TreeInv ⟨(st.nextId, v) :: st.nodes, st.nextId + 1, st.nextId :: st.active⟩ := by
  obtain ⟨h1, h2, h3, h4, h5, h6, h7, -⟩ := hInv
  have hfresh : getNode st st.nextId = none := by
    cases hg : getNode st st.nextId with
    | none => rfl
    | some m => exact absurd (h2 _ _ hg) (lt_irrefl _)
  have hget : ∀ j, getNode ⟨(st.nextId, v) :: st.nodes, st.nextId + 1,
      st.nextId :: st.active⟩ j =
      if st.nextId = j then some v else getNode st j := fun j => rfl
  have hnotin_keys : st.nextId ∉ st.nodes.map Prod.fst := by
    intro hmem
    rcases List.mem_map.mp hmem with ⟨ab, hab, he⟩
    have hso : (lookupNode st.nodes ab.1).isSome = true :=
      @lookupNode_isSome_of_mem st.nodes ab.1 ab.2 hab
    rw [he] at hso
    have hso2 : (getNode st st.nextId).isSome = true := hso
    rw [hfresh] at hso2
    simp at hso2
  have hnotact : st.nextId ∉ st.active := by
    intro hmem
    have hiso := (h7 st.nextId).mp hmem
    rw [hfresh] at hiso
    simp at hiso
  refine ⟨?_, ?_, ?_, ?_, ?_, ?_, ?_, fun j hj => hj.elim⟩
  · show (List.map Prod.fst ((st.nextId, v) :: st.nodes)).Nodup
    simp only [List.map_cons, List.nodup_cons]
    exact ⟨hnotin_keys, h1⟩
  · intro j m hm
    rw [hget] at hm
    show j < st.nextId + 1
    by_cases hj : st.nextId = j
    · rw [← hj]
      exact Nat.lt_succ_self _
    · rw [if_neg hj] at hm
      exact Nat.lt_succ_of_lt (h2 j m hm)
  · intro j m hm c hc
    rw [hget] at hm
    by_cases hj : st.nextId = j
    · rw [if_pos hj] at hm
      injection hm with hm
      rw [← hm, hch] at hc
      exact absurd hc (List.not_mem_nil c)
    · rw [if_neg hj] at hm
      obtain ⟨cm, hcm, hcp⟩ := h3 j m hm c hc
      have hcne : st.nextId ≠ c := by
        intro he
        rw [← he, hfresh] at hcm
        exact Option.noConfusion hcm
      refine ⟨cm, ?_, hcp⟩
      rw [hget, if_neg hcne]
      exact hcm
  · intro j m hm q hq hxj
    rw [hget] at hm
    by_cases hj : st.nextId = j
    · rw [if_pos hj] at hm
      injection hm with hm
      rw [← hm, hpar] at hq
      exact Option.noConfusion hq
    · rw [if_neg hj] at hm
      obtain ⟨pm, hpm, hpc⟩ := h4 j m hm q hq (by simp)
      have hqne : st.nextId ≠ q := by
        intro he
        rw [← he, hfresh] at hpm
        exact Option.noConfusion hpm
      refine ⟨pm, ?_, hpc⟩
      rw [hget, if_neg hqne]
      exact hpm
  · intro j m hm
    rw [hget] at hm
    by_cases hj : st.nextId = j
    · rw [if_pos hj] at hm
      injection hm with hm
      rw [← hm, hch]
      simp
    · rw [if_neg hj] at hm
      exact h5 j m hm
  · show (st.nextId :: st.active).Nodup
    simp only [List.nodup_cons]
    exact ⟨hnotact, h6⟩
  · intro j
    show j ∈ st.nextId :: st.active ↔ _
    rw [hget]
    by_cases hj : st.nextId = j
    · subst hj
      simp
    · rw [if_neg hj]
      simp only [List.mem_cons]
      constructor
      · intro hh
        rcases hh with hh | hh
        · exact absurd hh.symm hj
        · exact (h7 j).mp hh
      · intro hh
        exact Or.inr ((h7 j).mpr hh)

/-- Closed form of `construct` on a state whose allocation cursor is not
yet tracked: allocate and acquire, then link under the parent if any. -/
theorem construct_eq (st : FsState) (parent : Option NodeId) (name : String)
    (hA : st.nextId ∉ st.active) :
    node.construct st parent name =
      match parent with
      | none => some (st.nextId,
          ⟨(st.nextId, ⟨name, 1, [], none, [], [], false⟩) :: st.nodes,
            st.nextId + 1, st.nextId :: st.active⟩)
      | some p => (node.AddToParent
          ⟨(st.nextId, ⟨name, 1, [], none, [], [], false⟩) :: st.nodes,
            st.nextId + 1, st.nextId :: st.active⟩ st.nextId
          (some p)).map (fun st3 => (st.nextId, st3)) := by
  cases parent with
  | none =>
      simp [node.construct, NodeTracker.NodeCreated, node.Acquire, node.initNode,
        kEnableInodeTracking, hA, getNode, setNode, lookupNode, storeNode, bind, Option.bind]
  | some p =>
      cases hA3 : node.AddToParent
          ⟨(st.nextId, ⟨name, 1, [], none, [], [], false⟩) :: st.nodes,
            st.nextId + 1, st.nextId :: st.active⟩ st.nextId
          (some p) with
      | none => simp [node.construct, NodeTracker.NodeCreated, node.Acquire, node.initNode,
          kEnableInodeTracking, hA, getNode, setNode, lookupNode, storeNode, bind,
          Option.bind, hA3]
      | some st3 => simp [node.construct, NodeTracker.NodeCreated, node.Acquire, node.initNode,
          kEnableInodeTracking, hA, getNode, setNode, lookupNode, storeNode, bind,
          Option.bind, hA3]

/-- `construct` preserves the invariant. -/
theorem TreeInv_construct {st : FsState} {parent : Option NodeId} {name : String}
    {id : NodeId} {st' : FsState} (hInv : TreeInv st)
    (h : node.construct st parent name = some (id, st')) : TreeInv st' := by
  have hfresh : getNode st st.nextId = none := by
    cases hg : getNode st st.nextId with
    | none => rfl
    | some m => exact absurd (hInv.2.1 _ _ hg) (lt_irrefl _)
  have hA : st.nextId ∉ st.active := by
    intro hmem
    have hiso := (hInv.2.2.2.2.2.2.1 st.nextId).mp hmem
    rw [hfresh] at hiso
    simp at hiso
  have hTfresh : TreeInv ⟨(st.nextId, ⟨name, 1, [], none, [], [], false⟩) :: st.nodes,
      st.nextId + 1, st.nextId :: st.active⟩ :=
    TreeInv_pushFresh hInv _ rfl rfl
  rw [construct_eq st parent name hA] at h
  cases parent with
  | none =>
      simp only [Option.some.injEq, Prod.mk.injEq] at h
      obtain ⟨-, he2⟩ := h
      rw [← he2]
      exact hTfresh
  | some p =>
      simp only at h
      cases hA3 : node.AddToParent
          ⟨(st.nextId, ⟨name, 1, [], none, [], [], false⟩) :: st.nodes,
            st.nextId + 1, st.nextId :: st.active⟩ st.nextId
          (some p) with
      | none => rw [hA3] at h; simp at h
      | some st3 =>
          rw [hA3] at h
          simp only [Option.map_some', Option.some.injEq, Prod.mk.injEq] at h
          obtain ⟨-, he2⟩ := h
          rw [← he2]
          exact (TreeInv_AddToParent hTfresh hA3).1

/-- `Create` preserves the invariant. -/
theorem TreeInv_Create {st : FsState} {parent : Option NodeId} {name : String}
    {id : NodeId} {st' : FsState} (hInv : TreeInv st)
    (h : node.Create st parent name = some (id, st')) : TreeInv st' :=
  TreeInv_construct hInv h

/-- `Acquire` preserves the invariant. -/
theorem TreeInv_Acquire {st st' : FsState} {id : NodeId}
    (hInv : TreeInv st) (h : node.Acquire st id = some st') : TreeInv st' := by
  cases hn : getNode st id with
  | none => simp [node.Acquire, hn, bind, Option.bind] at h
  | some n =>
      simp only [node.Acquire, hn, bind, Option.bind, Option.pure_def,
        Option.some.injEq] at h
      subst h
      exact InvE_setNode_struct hInv hn rfl rfl
        (le_trans (hInv.2.2.2.2.1 id n hn) (Nat.le_succ _))

/-- `CreateRoot` preserves the invariant. -/
theorem TreeInv_CreateRoot {st : FsState} {path : String} {id : NodeId} {st' : FsState}
    (hInv : TreeInv st) (h : node.CreateRoot st path = some (id, st')) : TreeInv st' := by
  simp only [node.CreateRoot, bind, Option.bind] at h
  cases hc : node.construct st none path with
  | none => rw [hc] at h; simp at h
  | some pr =>
      obtain ⟨cid, cst⟩ := pr
      rw [hc] at h
      simp only at h
      cases hAq : node.Acquire cst cid with
      | none => rw [hAq] at h; simp at h
      | some st2 =>
          rw [hAq] at h
          simp only [Option.pure_def, Option.some.injEq, Prod.mk.injEq] at h
          obtain ⟨-, he2⟩ := h
          rw [← he2]
          exact TreeInv_Acquire (TreeInv_construct hInv hc) hAq

/-- `SetDeleted` preserves the invariant. -/
theorem TreeInv_SetDeleted {st st' : FsState} {id : NodeId}
    (hInv : TreeInv st) (hop : node.SetDeleted st id = some st') : TreeInv st' := by
  cases hn : getNode st id with
  | none => simp [node.SetDeleted, hn, bind, Option.bind] at hop
  | some n =>
      simp only [node.SetDeleted, hn, bind, Option.bind, Option.pure_def,
        Option.some.injEq] at hop
      subst hop
      exact InvE_setNode_struct hInv hn rfl rfl (hInv.2.2.2.2.1 id n hn)

/-- `AddHandle` preserves the invariant. -/
theorem TreeInv_AddHandle {st st' : FsState} {id : NodeId} {hdl : Handle}
    (hInv : TreeInv st) (hop : node.AddHandle st id hdl = some st') : TreeInv st' := by
  cases hn : getNode st id with
  | none => simp [node.AddHandle, hn, bind, Option.bind] at hop
  | some n =>
      simp only [node.AddHandle, hn, bind, Option.bind, Option.pure_def,
        Option.some.injEq] at hop
      subst hop
      exact InvE_setNode_struct hInv hn rfl rfl (hInv.2.2.2.2.1 id n hn)

/-- `DestroyHandle` preserves the invariant. -/
theorem TreeInv_DestroyHandle {st st' : FsState} {id : NodeId} {k : Nat}
    (hInv : TreeInv st) (hop : node.DestroyHandle st id k = some st') : TreeInv st' := by
  cases hn : getNode st id with
  | none => simp [node.DestroyHandle, hn, bind, Option.bind] at hop
  | some n =>
      simp only [node.DestroyHandle, hn, bind, Option.bind] at hop
      cases hr : node.removeHandle n.handles k with
      | none => rw [hr] at hop; simp at hop
      | some hs =>
          rw [hr] at hop
          simp only [Option.pure_def, Option.some.injEq] at hop
          subst hop
          exact InvE_setNode_struct hInv hn rfl rfl (hInv.2.2.2.2.1 id n hn)

/-- `AddDirHandle` preserves the invariant. -/
theorem TreeInv_AddDirHandle {st st' : FsState} {id : NodeId} {d : DirHandle}
    (hInv : TreeInv st) (hop : node.AddDirHandle st id d = some st') : TreeInv st' := by
  cases hn : getNode st id with
  | none => simp [node.AddDirHandle, hn, bind, Option.bind] at hop
  | some n =>
      simp only [node.AddDirHandle, hn, bind, Option.bind, Option.pure_def,
        Option.some.injEq] at hop
      subst hop
      exact InvE_setNode_struct hInv hn rfl rfl (hInv.2.2.2.2.1 id n hn)

/-- `DestroyDirHandle` preserves the invariant. -/
theorem TreeInv_DestroyDirHandle {st st' : FsState} {id : NodeId} {k : Nat}
    (hInv : TreeInv st) (hop : node.DestroyDirHandle st id k = some st') : TreeInv st' := by
  cases hn : getNode st id with
  | none => simp [node.DestroyDirHandle, hn, bind, Option.bind] at hop
  | some n =>
      simp only [node.DestroyDirHandle, hn, bind, Option.bind] at hop
      cases hr : node.removeDirHandle n.dirhandles k with
      | none => rw [hr] at hop; simp at hop
      | some ds =>
          rw [hr] at hop
          simp only [Option.pure_def, Option.some.injEq] at hop
          subst hop
          exact InvE_setNode_struct hInv hn rfl rfl (hInv.2.2.2.2.1 id n hn)

/-- The child scan of `LookupChildByName` preserves the invariant. -/
theorem TreeInv_scanChildren {st : FsState} {name : String} {acq : Bool} :
    ∀ {cs : List NodeId} {r : Option NodeId} {st' : FsState},
    TreeInv st → node.scanChildren st name acq cs = some (r, st') → TreeInv st' := by
  intro cs
  induction cs with
  | nil =>
      intro r st' hInv hop
      simp only [node.scanChildren, Option.pure_def, Option.some.injEq,
        Prod.mk.injEq] at hop
      obtain ⟨-, he⟩ := hop
      rw [← he]
      exact hInv
  | cons c rest ih =>
      intro r st' hInv hop
      simp only [node.scanChildren, bind, Option.bind] at hop
      cases hc : getNode st c with
      | none => rw [hc] at hop; simp at hop
      | some cn =>
          rw [hc] at hop
          simp only at hop
          by_cases hmatch : (node.caseEq name cn.name && !cn.deleted) = true
          · rw [if_pos hmatch] at hop
            cases acq with
            | false =>
                simp only [Bool.false_eq_true, if_false, Option.pure_def,
                  Option.some.injEq, Prod.mk.injEq] at hop
                obtain ⟨-, he⟩ := hop
                rw [← he]
                exact hInv
            | true =>
                simp only [if_true, bind, Option.bind] at hop
                cases hAq : node.Acquire st c with
                | none => rw [hAq] at hop; simp at hop
                | some st1 =>
                    rw [hAq] at hop
                    simp only [Option.pure_def, Option.some.injEq, Prod.mk.injEq] at hop
                    obtain ⟨-, he⟩ := hop
                    rw [← he]
                    exact TreeInv_Acquire hInv hAq
          · rw [if_neg hmatch] at hop
            exact ih hInv hop

/-- `LookupChildByName` preserves the invariant. -/
theorem TreeInv_LookupChildByName {st st' : FsState} {id : NodeId} {name : String}
    {acq : Bool} {r : Option NodeId}
    (hInv : TreeInv st) (hop : node.LookupChildByName st id name acq = some (r, st')) :
    TreeInv st' := by
  cases hn : getNode st id with
  | none => simp [node.LookupChildByName, hn, bind, Option.bind] at hop
  | some n =>
      simp only [node.LookupChildByName, hn, bind, Option.bind] at hop
      exact TreeInv_scanChildren hInv hop

/-- `RemoveFromParent` preserves the invariant. -/
theorem TreeInv_RemoveFromParent {fuel : Nat} {st st' : FsState} {id : NodeId}
    (hInv : TreeInv st) (hop : node.RemoveFromParent fuel st id = some st') :
    TreeInv st' := by
  cases hn : getNode st id with
  | none =>
      cases fuel with
      | zero => simp [node.RemoveFromParent] at hop
      | succ f => simp [node.RemoveFromParent, hn, bind, Option.bind] at hop
  | some n => exact ((cascadeInvE fuel).2.2 _ st id n st' hInv hn hop).1

/-- `Release` under the per-child reference side condition preserves the
invariant. -/
theorem TreeInv_Release {fuel : Nat} {st st' : FsState} {id : NodeId} {c : Nat}
    {b : Bool} {n : NodeData}
    (hInv : TreeInv st) (hn : getNode st id = some n)
    (hc : c + n.children.length ≤ n.refcount ∨ n.refcount < c)
    (hop : node.Release fuel st id c = some (b, st')) : TreeInv st' :=
  ((cascadeInvE fuel).1 _ st id c n b st' hInv hn hc hop).1

/-- `Rename` preserves the invariant. -/
theorem TreeInv_Rename {fuel : Nat} {st st' : FsState} {id : NodeId} {name : String}
    {np : Option NodeId} (hInv : TreeInv st)
    (hop : node.Rename fuel st id name np = some st') : TreeInv st' := by
  cases hn : getNode st id with
  | none => simp [node.Rename, hn, bind, Option.bind] at hop
  | some n =>
      simp only [node.Rename, hn, bind, Option.bind] at hop
      have hInv1 : TreeInv (setNode st id { n with name := name }) :=
        InvE_setNode_struct hInv hn rfl rfl (hInv.2.2.2.2.1 id n hn)
      by_cases hnp : np = n.parent
      · rw [if_pos hnp] at hop
        simp only [Option.pure_def, Option.some.injEq] at hop
        subst hop
        exact hInv1
      · rw [if_neg hnp] at hop
        cases hrm : node.RemoveFromParent fuel (setNode st id { n with name := name }) id with
        | none => rw [hrm] at hop; simp at hop
        | some st2 =>
            rw [hrm] at hop
            simp only at hop
            have hInv2 : TreeInv st2 := TreeInv_RemoveFromParent hInv1 hrm
            cases np with
            | none =>
                exfalso
                cases hg : getNode st2 id with
                | none => simp [node.AddToParent, hg, bind, Option.bind] at hop
                | some n2 => simp [node.AddToParent, hg, bind, Option.bind] at hop
            | some p => exact (TreeInv_AddToParent hInv2 hop).1

/-- The executable invariant check agrees with the propositional
invariant. -/
theorem invB_eq_true_iff {st : FsState} : invB st = true ↔ TreeInv st := by
  constructor
  · intro hB
    simp only [invB, Bool.and_eq_true, List.all_eq_true, decide_eq_true_eq] at hB
    obtain ⟨⟨⟨⟨⟨⟨⟨hc1, hc2⟩, hc3⟩, hc4⟩, hc5⟩, hc6⟩, hc7⟩, hc8⟩ := hB
    refine ⟨hc1, ?_, ?_, ?_, ?_, hc6, ?_, fun j hj => hj.elim⟩
    · intro j m hm
      exact hc2 (j, m) (lookupNode_mem hm)
    · intro j m hm c hc
      have hx := hc3 (j, m) (lookupNode_mem hm) c hc
      simp only at hx
      cases hgc : getNode st c with
      | none => rw [hgc] at hx; simp at hx
      | some cm =>
          rw [hgc] at hx
          exact ⟨cm, rfl, by simpa using hx⟩
    · intro j m hm p hp hne
      have hx := hc4 (j, m) (lookupNode_mem hm)
      simp only at hx
      rw [hp] at hx
      simp only at hx
      cases hgp : getNode st p with
      | none => rw [hgp] at hx; simp at hx
      | some pm =>
          rw [hgp] at hx
          exact ⟨pm, rfl, by simpa using hx⟩
    · intro j m hm
      exact hc5 (j, m) (lookupNode_mem hm)
    · intro j
      constructor
      · intro hj
        exact hc7 j hj
      · intro hj
        obtain ⟨m, hm⟩ := Option.isSome_iff_exists.mp hj
        have hcon := hc8 (j, m) (lookupNode_mem hm)
        simpa using hcon
  · intro hT
    obtain ⟨h1, h2, h3, h4, h5, h6, h7, -⟩ := hT
    have hlook : ∀ kv ∈ st.nodes, getNode st kv.1 = some kv.2 := by
      intro kv hkv
      exact lookupNode_eq_of_mem_nodup h1 hkv
    simp only [invB, Bool.and_eq_true, List.all_eq_true, decide_eq_true_eq]
    refine ⟨⟨⟨⟨⟨⟨⟨h1, ?_⟩, ?_⟩, ?_⟩, ?_⟩, h6⟩, ?_⟩, ?_⟩
    · intro kv hkv
      exact h2 kv.1 kv.2 (hlook kv hkv)
    · intro kv hkv c hc
      obtain ⟨cm, hgc, hcp⟩ := h3 kv.1 kv.2 (hlook kv hkv) c hc
      rw [hgc]
      simp [hcp]
    · intro kv hkv
      cases hp : kv.2.parent with
      | none => rfl
      | some p =>
          obtain ⟨pm, hgp, hcnt⟩ := h4 kv.1 kv.2 (hlook kv hkv) p hp (by simp)
          simp [hgp, hcnt]
    · intro kv hkv
      exact h5 kv.1 kv.2 (hlook kv hkv)
    · intro j hj
      exact (h7 j).mp hj
    · intro kv hkv
      have hso : (getNode st kv.1).isSome = true := by
        rw [hlook kv hkv]
        rfl
      have hmem := (h7 kv.1).mpr hso
      simpa using hmem

/-- The strengthened executable invariant implies the invariant exactly
as the specification states it. -/
theorem invB_specInvB {st : FsState} (h : invB st = true) : specInvB st = true := by
  simp only [invB, Bool.and_eq_true] at h
  obtain ⟨⟨⟨⟨⟨⟨⟨-, -⟩, hc3⟩, hc4⟩, -⟩, -⟩, hc7⟩, hc8⟩ := h
  simp only [specInvB, Bool.and_eq_true]
  exact ⟨⟨⟨hc3, hc4⟩, hc7⟩, hc8⟩

/-- C6 (amended): the spec-stated tree/tracker invariant is not preserved
by every `Release` (see the counterexample: releasing all references of a
node that still has children orphans them), but the strengthened
executable invariant `invB` — which implies the spec-stated invariant
`specInvB` — is preserved by `Create`, `CreateRoot`, `Rename`,
`SetDeleted`, `LookupChildByName` and all four handle operations
unconditionally, and by `Release count` whenever the released node keeps
one reference per remaining child (`count + children ≤ refcount`) or the
call is an over-release (`refcount < count`). -/
theorem claim_C6_amended (st : FsState) (hInv : invB st = true) :
    specInvB st = true ∧
    (∀ parent name id st', node.Create st parent name = some (id, st') →
        invB st' = true) ∧
    (∀ path id st', node.CreateRoot st path = some (id, st') → invB st' = true) ∧
    (∀ fuel id name np st', node.Rename fuel st id name np = some st' →
        invB st' = true) ∧
    (∀ id st', node.SetDeleted st id = some st' → invB st' = true) ∧
    (∀ fuel id c n b st', getNode st id = some n →
        c + n.children.length ≤ n.refcount ∨ n.refcount < c →
        node.Release fuel st id c = some (b, st') → invB st' = true) ∧
    (∀ id name acq r st', node.LookupChildByName st id name acq = some (r, st') →
        invB st' = true) ∧
    (∀ id hdl st', node.AddHandle st id hdl = some st' → invB st' = true) ∧
    (∀ id k st', node.DestroyHandle st id k = some st' → invB st' = true) ∧
    (∀ id d st', node.AddDirHandle st id d = some st' → invB st' = true) ∧
    (∀ id k st', node.DestroyDirHandle st id k = some st' → invB st' = true) := by
  have hT : TreeInv st := invB_eq_true_iff.mp hInv
  refine ⟨invB_specInvB hInv, ?_, ?_, ?_, ?_, ?_, ?_, ?_, ?_, ?_, ?_⟩
  · intro parent name id st' h
    exact invB_eq_true_iff.mpr (TreeInv_Create hT h)
  · intro path id st' h
    exact invB_eq_true_iff.mpr (TreeInv_CreateRoot hT h)
  · intro fuel id name np st' h
    exact invB_eq_true_iff.mpr (TreeInv_Rename hT h)
  · intro id st' h
    exact invB_eq_true_iff.mpr (TreeInv_SetDeleted hT h)
  · intro fuel id c n b st' hn hc h
    exact invB_eq_true_iff.mpr (TreeInv_Release hT hn hc h)
  · intro id name acq r st' h
    exact invB_eq_true_iff.mpr (TreeInv_LookupChildByName hT h)
  · intro id hdl st' h
    exact invB_eq_true_iff.mpr (TreeInv_AddHandle hT h)
  · intro id k st' h
    exact invB_eq_true_iff.mpr (TreeInv_DestroyHandle hT h)
  · intro id d st' h
    exact invB_eq_true_iff.mpr (TreeInv_AddDirHandle hT h)
  · intro id k st' h
    exact invB_eq_true_iff.mpr (TreeInv_DestroyDirHandle hT h)

/-- Witness for the amended C6 at the concrete root-plus-child state:
`SetDeleted` on the child keeps the invariant true. -/
theorem claim_C6_amended_witness :
    invB stP = true ∧
    invB ⟨[(1, ⟨"Pictures", 1, [], some 0, [], [], true⟩),
           (0, ⟨"/", 3, [1], none, [], [], false⟩)], 2, [1, 0]⟩ = true :=
  ⟨by decide, (claim_C6_amended stP (by decide)).2.2.2.2.1 1 _ (by decide)⟩
